import Mathlib

/-!
Verification development for the MRW commissions backend
(`src/backend/main.py`): a shallow embedding of the column-mapping
inference and dataset-normalization engine, together with theorems about
the claims of the specification.

Modelling conventions:
* Python floats are embedded as rationals (`ℚ`); arithmetic on the values
  appearing in the claims is exact decimal arithmetic, for which the
  rational embedding is faithful.
* Spreadsheet cell values are the inductive type `Cell` (string, int,
  float, pandas timestamp, missing value `NaN`, and Python `None`).
* Strings are processed through their underlying character lists; the
  Unicode lowercasing and NFD accent stripping of `normalize_text` are
  modelled on the ASCII letters plus the Spanish accented letters that the
  application's keyword tables and month names use; all other characters
  are fixed points, matching Python on the alphabet of the program.
-/

/-- Whitespace class used by Python's `str.strip` and the regex `\s` for
the ASCII range (space, tab, newline, carriage return, vertical tab,
form feed). -/
def isSpaceChar (c : Char) : Bool :=
  c = ' ' || c = '\t' || c = '\n' || c = '\r' || c = '\x0b' || c = '\x0c'

/-- First-match association lookup on a character table. -/
def lookupChar : List (Char × Char) → Char → Option Char
  | [], _ => none
  | (k, v) :: t, c => if c = k then some v else lookupChar t c

/-- Lowercasing table: ASCII upper-case letters plus the upper-case
accented letters used by the application (Python `str.lower` restricted
to the program's alphabet). -/
def lowerPairs : List (Char × Char) :=
  [('A','a'),('B','b'),('C','c'),('D','d'),('E','e'),('F','f'),('G','g'),
   ('H','h'),('I','i'),('J','j'),('K','k'),('L','l'),('M','m'),('N','n'),
   ('O','o'),('P','p'),('Q','q'),('R','r'),('S','s'),('T','t'),('U','u'),
   ('V','v'),('W','w'),('X','x'),('Y','y'),('Z','z'),
   ('Á','á'),('É','é'),('Í','í'),('Ó','ó'),('Ú','ú'),('Ü','ü'),('Ñ','ñ')]

/-- NFD-decompose-and-drop-combining-marks table for the program's
alphabet: each accented letter maps to its base letter. -/
def accentPairs : List (Char × Char) :=
  [('á','a'),('é','e'),('í','i'),('ó','o'),('ú','u'),('ü','u'),('ñ','n'),
   ('Á','A'),('É','E'),('Í','I'),('Ó','O'),('Ú','U'),('Ü','U'),('Ñ','N')]

/-- Python `str.lower` on the modelled alphabet. -/
def pyLower (c : Char) : Char := (lookupChar lowerPairs c).getD c

/-- `unicodedata.normalize("NFD", ·)` followed by dropping category-Mn
characters, on the modelled alphabet (a single accented character
decomposes to its base character plus a dropped combining mark). -/
def stripAccent (c : Char) : Char := (lookupChar accentPairs c).getD c

/-- The per-character action of lowercasing followed by accent
stripping. -/
def normChar (c : Char) : Char := stripAccent (pyLower c)

/-- Python `str.strip`: drop whitespace from both ends. -/
def pstrip (cs : List Char) : List Char :=
  ((cs.dropWhile isSpaceChar).reverse.dropWhile isSpaceChar).reverse

/-- State-passing form of `re.sub(r"\s+", " ", ·)`: the flag records
whether the previous character was part of a whitespace run. -/
def collapseWsAux : Bool → List Char → List Char
  | _, [] => []
  | prevWs, c :: rest =>
    if isSpaceChar c then
      if prevWs then collapseWsAux true rest
      else ' ' :: collapseWsAux true rest
    else c :: collapseWsAux false rest

/-- `re.sub(r"\s+", " ", ·)`: replace every maximal whitespace run by a
single space. -/
def collapseWs (cs : List Char) : List Char := collapseWsAux false cs

/-- Character-list core of `normalize_text`: strip, lowercase, strip
accents, collapse whitespace runs (in the source's order). -/
def normalizeChars (cs : List Char) : List Char :=
  collapseWs (((pstrip cs).map pyLower).map stripAccent)

/-- A spreadsheet cell value as produced by `pd.read_excel`: a string, a
Python int, a float (embedded as `ℚ`), a pandas timestamp (year, month,
day), a missing value (`NaN`), or Python `None`. -/
inductive Cell where
  | str (s : String)
  | int (n : ℤ)
  | num (q : ℚ)
  | date (y m d : Nat)
  | blank
  | pynone
deriving DecidableEq

/-- Reverse a digit list order helper: drop trailing '0' characters. -/
def trimZeros (l : List Char) : List Char :=
  (l.reverse.dropWhile (fun c => c = '0')).reverse

/-- Zero-pad a number to two digits, as in a timestamp's ISO rendering. -/
def pad2 (n : Nat) : String :=
  if n < 10 then "0" ++ toString n else toString n

/-- Python `str` of a float under the rational embedding: exact (`"100.0"`)
for integral values; for non-integral values a finite decimal expansion
(17 fractional digits, trailing zeros trimmed) approximating the float
repr.  No claim depends on the non-integral rendering. -/
def pyStrNum (q : ℚ) : String :=
  if q.den = 1 then toString q.num ++ ".0"
  else
    let sgn := if q < 0 then "-" else ""
    let aq := if q < 0 then -q else q
    let ip := (Rat.floor aq).toNat
    let fracNum := (Rat.floor ((aq - (ip : ℚ)) * 10 ^ 17)).toNat
    let ds := (toString fracNum).data
    let padded := List.replicate (17 - ds.length) '0' ++ ds
    let fd := trimZeros padded
    sgn ++ toString ip ++ "." ++ (if fd = [] then "0" else String.mk fd)

/-- Python `str` of a cell value (`str(nan) = "nan"`, `str(None) = "None"`,
timestamps render in ISO form). -/
def pyStr : Cell → String
  | .str s => s
  | .int n => toString n
  | .num q => pyStrNum q
  | .date y m d => toString y ++ "-" ++ pad2 m ++ "-" ++ pad2 d ++ " 00:00:00"
  | .blank => "nan"
  | .pynone => "None"

/-- Python truthiness of a cell value (note: `NaN` is truthy). -/
def cellTruthy : Cell → Bool
  | .str s => !s.isEmpty
  | .int n => if n = 0 then false else true
  | .num q => if q = 0 then false else true
  | .date _ _ _ => true
  | .blank => true
  | .pynone => false

/-- `pd.isna` on a cell: missing values are `NaN` and `None`. -/
def isna : Cell → Bool
  | .blank => true
  | .pynone => true
  | _ => false

/-- `normalize_text(value)`: `str(value or "")`, strip, lowercase, strip
accents, collapse whitespace (main.py lines 60-66). -/
def normalize_text (value : Cell) : String :=
  String.mk (normalizeChars (if cellTruthy value then pyStr value else "").data)

/-- The 12 canonical Spanish month names (main.py `MONTHS_ES`). -/
def MONTHS_ES : List String :=
  ["enero", "febrero", "marzo", "abril", "mayo", "junio", "julio",
   "agosto", "septiembre", "octubre", "noviembre", "diciembre"]

/-- The fixed month alias table (main.py `MONTH_ALIAS`), in the source's
insertion order. -/
def MONTH_ALIAS : List (String × String) :=
  [("ene", "enero"), ("feb", "febrero"), ("mar", "marzo"),
   ("abr", "abril"), ("may", "mayo"), ("jun", "junio"), ("jul", "julio"),
   ("ago", "agosto"), ("sep", "septiembre"), ("set", "septiembre"),
   ("oct", "octubre"), ("nov", "noviembre"), ("dic", "diciembre")]

/-- `normalize_text(calendar.month_name[idx])` for idx 1..12 under the
host's default C locale (English month names). -/
def LOCALE_MONTHS : List String :=
  ["january", "february", "march", "april", "may", "june", "july",
   "august", "september", "october", "november", "december"]

/-- Numeric value of a digit list, most significant first. -/
def decimalVal (ds : List Char) : Nat :=
  ds.foldl (fun a c => a * 10 + (c.toNat - 48)) 0

/-- Full match of the compact month pattern of main.py line 89: a month
number `0?[1-9]` or `1[0-2]`, optionally followed by a slash or dash and
2 to 4 digits; returns the month number on success. -/
def compactMonth (cs : List Char) : Option Nat :=
  let md := cs.takeWhile Char.isDigit
  let rest := cs.dropWhile Char.isDigit
  let okMonth : Bool :=
    match md with
    | [d] => decide ('1' ≤ d ∧ d ≤ '9')
    | [d1, d2] => decide ((d1 = '0' ∧ '1' ≤ d2 ∧ d2 ≤ '9') ∨
        (d1 = '1' ∧ '0' ≤ d2 ∧ d2 ≤ '2'))
    | _ => false
  let okRest : Bool :=
    match rest with
    | [] => true
    | c :: ds => decide ((c = '/' ∨ c = '-') ∧ 2 ≤ ds.length ∧
        ds.length ≤ 4) && ds.all Char.isDigit
  if okMonth && okRest then some (decimalVal md) else none

/-- `normalize_month(value)` (main.py lines 69-92): resolve a raw value to
a canonical Spanish month name through the source's cascade of rules,
returning the normalized input unchanged when nothing matches. -/
def normalize_month (value : Cell) : String :=
  let raw := normalize_text value
  if raw = "" then ""
  else if raw ∈ MONTHS_ES then raw
  else
    match MONTH_ALIAS.lookup raw with
    | some m => m
    | none =>
      match (List.range 12).findSome?
          (fun i => if raw = toString (i + 1) then MONTHS_ES[i]? else none) with
      | some m => m
      | none =>
        match (LOCALE_MONTHS.zip MONTHS_ES).findSome?
            (fun p => if raw = p.1 then some p.2 else none) with
        | some m => m
        | none =>
          match MONTHS_ES.findSome? (fun m =>
              if (m ++ " ").data.isPrefixOf raw.data ∨
                 (m ++ "-").data.isPrefixOf raw.data ∨
                 (m ++ "/").data.isPrefixOf raw.data
              then some m else none) with
          | some m => m
          | none =>
            match MONTH_ALIAS.findSome? (fun p =>
                if (p.1 ++ " ").data.isPrefixOf raw.data ∨
                   (p.1 ++ "-").data.isPrefixOf raw.data ∨
                   (p.1 ++ "/").data.isPrefixOf raw.data
                then some p.2 else none) with
            | some m => m
            | none =>
              match compactMonth raw.data with
              | some n => (MONTHS_ES[n - 1]?).getD raw
              | none => raw

/-- Word characters for the regex `\b` boundary (`[A-Za-z0-9_]` plus the
modelled accented letters). -/
def isWordChar (c : Char) : Bool :=
  c.isAlphanum || c = '_' ||
    (lookupChar lowerPairs c).isSome || (lookupChar accentPairs c).isSome

/-- Attempt to match `(19\d{2}|20\d{2}|21\d{2})\b` at the head of the
character list, returning the matched year. -/
def yearHead (cs : List Char) : Option Nat :=
  match cs with
  | d1 :: d2 :: d3 :: d4 :: rest =>
    if decide ((d1 = '1' ∧ d2 = '9') ∨ (d1 = '2' ∧ (d2 = '0' ∨ d2 = '1'))) &&
       d3.isDigit && d4.isDigit &&
       (match rest with | [] => true | c :: _ => !isWordChar c)
    then some (decimalVal [d1, d2, d3, d4]) else none
  | _ => none

/-- Left-to-right scan of `re.search(r"\b(19\d{2}|20\d{2}|21\d{2})\b", ·)`;
the first argument is the character preceding the current position. -/
def searchYear : Option Char → List Char → Option Nat
  | _, [] => none
  | prev, c :: rest =>
    if (match prev with | none => true | some p => !isWordChar p) then
      match yearHead (c :: rest) with
      | some y => some y
      | none => searchYear (some c) rest
    else searchYear (some c) rest

/-- `extract_year(value)` (main.py lines 95-108): read the year field of a
structured date when in [1900, 2100], else regex-search the stringified
value for a 4-digit 19xx/20xx/21xx token. -/
def extract_year (value : Cell) : Option Nat :=
  match value with
  | .pynone => none
  | .date y _ _ =>
    if 1900 ≤ y ∧ y ≤ 2100 then some y
    else searchYear none (pyStr value).data
  | _ => searchYear none (pyStr value).data

/-- `normalize_month_year(value, fallback_year)` (main.py lines 111-116).
`extract_year` never returns 0 (its results are at least 1900), so the
Python expression `extract_year(value) or fallback_year` is an
option-coalesce; a year value of 0 is falsy in the final formatting
conditional. -/
def normalize_month_year (value : Cell) (fallback_year : Option Nat) : String :=
  let month := normalize_month value
  if month ∈ MONTHS_ES then
    let year := match extract_year value with
      | some y => some y
      | none => fallback_year
    match year with
    | some y => if y = 0 then month else month ++ " " ++ toString y
    | none => month
  else ""

/-- A raw table: the ordered column headers and the data rows, as parsed
from the uploaded spreadsheet.  Column labels are modelled as strings
(the code immediately stringifies them). -/
structure RawTable where
  headers : List String
  rows : List (List Cell)
deriving DecidableEq

/-- The cells of one named column, in row order (`df[col]`); a missing
label yields the empty column (unreachable in `normalize_dataset`, whose
column references are validated first). -/
def colCells (df : RawTable) (c : String) : List Cell :=
  match df.headers.findIdx? (fun h => h = c) with
  | some i => df.rows.map (fun r => r.getD i Cell.blank)
  | none => []

/-- Insert-or-overwrite on an association list, keeping the position of an
existing key (the behaviour of a Python dict comprehension when two
columns share a normalized name: first position, last value). -/
def upsert : List (String × String) → String → String → List (String × String)
  | [], k, v => [(k, v)]
  | (k0, v0) :: t, k, v =>
    if k0 = k then (k, v) :: t else (k0, v0) :: upsert t k v

/-- The dict `{normalize_text(col): col for col in df.columns}` of
`find_column`, in dict iteration order. -/
def buildNormalizedMap (cols : List String) : List (String × String) :=
  cols.foldl (fun acc c => upsert acc (normalize_text (.str c)) c) []

/-- `p` occurs as a contiguous substring of `l` (Python `p in l` on
strings; the empty string occurs in every string). -/
def listContainsSub : List Char → List Char → Bool
  | l, p =>
    if p.isPrefixOf l then true
    else match l with
      | [] => false
      | _ :: t => listContainsSub t p

/-- `find_column(df, candidates)` (main.py lines 127-136): first an exact
pass over the candidate keywords against the normalized header names,
then a substring pass in dict order. -/
def find_column (df : RawTable) (candidates : List String) : Option String :=
  let normalized := buildNormalizedMap df.headers
  match candidates.findSome? (fun cand => normalized.lookup cand) with
  | some c => some c
  | none =>
    normalized.findSome? (fun p =>
      if candidates.any (fun cand => listContainsSub p.1.data cand.data)
      then some p.2 else none)

/-- `month_columns(df)` (main.py lines 163-168): the columns whose header
normalizes to a canonical month name, in native column order. -/
def month_columns (df : RawTable) : List String :=
  df.headers.filter (fun c => normalize_month (.str c) ∈ MONTHS_ES)

/-- A column mapping with sanitized/detected shape (the dict returned by
`detect_mapping` and `sanitize_mapping`); `struct` models the
`"structure"` key. -/
structure Mapping where
  struct : String
  comercial : String
  cliente : String
  mes : String
  facturacion : String
  month_columns : List String
deriving DecidableEq

/-- Salesperson keyword list of `detect_mapping`. -/
def COMERCIAL_KEYS : List String :=
  ["comercial", "nombre comercial", "vendedor", "agente", "salesperson",
   "asesor", "gestor"]

/-- Client keyword list of `detect_mapping`. -/
def CLIENTE_KEYS : List String :=
  ["cliente", "nombre cliente", "cuenta", "customer", "razon social",
   "empresa", "destinatario"]

/-- Month keyword list of `detect_mapping`. -/
def MES_KEYS : List String := ["mes", "month"]

/-- Revenue keyword list of `detect_mapping`. -/
def FACTURACION_KEYS : List String :=
  ["facturacion bruta", "facturacion", "ventas", "importe", "total",
   "revenue"]

/-- Python truthiness of an optional string (`None` and the empty string
are falsy). -/
def optStrTruthy : Option String → Bool
  | none => false
  | some s => !s.isEmpty

/-- `detect_mapping(df)` (main.py lines 192-231). -/
def detect_mapping (df : RawTable) : Mapping :=
  let salesperson_col := find_column df COMERCIAL_KEYS
  let client_col := find_column df CLIENTE_KEYS
  let month_col := find_column df MES_KEYS
  let revenue_col := find_column df FACTURACION_KEYS
  let m_cols := month_columns df
  let s :=
    if optStrTruthy month_col && optStrTruthy revenue_col then "long"
    else if !m_cols.isEmpty then "wide"
    else "unknown"
  { struct := s,
    comercial := salesperson_col.getD "",
    cliente := client_col.getD "",
    mes := month_col.getD "",
    facturacion := revenue_col.getD "",
    month_columns := m_cols }

/-- An untrusted JSON-ish value, as found in a user-supplied or persisted
mapping. -/
inductive PyVal where
  | str (s : String)
  | num (q : ℚ)
  | boolean (b : Bool)
  | list (xs : List PyVal)
  | pynone

/-- An untrusted candidate mapping: each of the six keys read by
`sanitize_mapping` is either absent (`none`) or holds an arbitrary
value.  Extra keys are ignored by the code and hence not modelled. -/
structure RawMapping where
  struct : Option PyVal
  comercial : Option PyVal
  cliente : Option PyVal
  mes : Option PyVal
  facturacion : Option PyVal
  month_columns : Option PyVal

/-- The empty dict `{}`. -/
def RawMapping.empty : RawMapping := ⟨none, none, none, none, none, none⟩

/-- The inner `pick` of `sanitize_mapping`: keep a value only when it is a
string naming an available column. -/
def pick (allowed : List String) : Option PyVal → String
  | some (.str s) => if s ∈ allowed then s else ""
  | _ => ""

/-- `sanitize_mapping(mapping, available_columns)` (main.py lines
234-256). -/
def sanitize_mapping (mapping : RawMapping) (available_columns : List String) :
    Mapping :=
  let allowed := available_columns
  let month_cols :=
    match mapping.month_columns.getD (.list []) with
    | .list xs => xs.filterMap (fun x =>
        match x with
        | .str s => if s ∈ allowed then some s else none
        | _ => none)
    | _ => []
  let s :=
    match mapping.struct.getD (.str "unknown") with
    | .str v => if v = "long" ∨ v = "wide" ∨ v = "unknown" then v else "unknown"
    | _ => "unknown"
  { struct := s,
    comercial := pick allowed mapping.comercial,
    cliente := pick allowed mapping.cliente,
    mes := pick allowed mapping.mes,
    facturacion := pick allowed mapping.facturacion,
    month_columns := month_cols }

/-- Python `str.rfind` for a character known to occur: the index of its
last occurrence. -/
def rfindIdx (cs : List Char) (c : Char) : Nat :=
  cs.length - 1 - cs.reverse.findIdx (fun a => a = c)

/-- Split an optional leading sign, returning the sign as a rational
factor (`float` literal syntax). -/
def splitSign (cs : List Char) : ℚ × List Char :=
  match cs with
  | c :: t => if c = '+' then (1, t) else if c = '-' then (-1, t) else (1, cs)
  | [] => (1, [])

/-- Split an optional fractional part `. D*` after the integer digits. -/
def splitFrac : List Char → List Char × List Char
  | c :: t =>
    if c = '.' then (t.takeWhile Char.isDigit, t.dropWhile Char.isDigit)
    else ([], c :: t)
  | [] => ([], [])

/-- Sign of an exponent suffix (`true` = negative). -/
def splitExpSign (cs : List Char) : Bool × List Char :=
  match cs with
  | c :: t =>
    if c = '+' then (false, t) else if c = '-' then (true, t) else (false, cs)
  | [] => (false, [])

/-- Parse an optional exponent suffix applied to the mantissa, requiring
the rest of the input to be consumed. -/
def parseExp (mant : ℚ) : List Char → Option ℚ
  | [] => some mant
  | c :: t =>
    if c = 'e' ∨ c = 'E' then
      let p := splitExpSign t
      let ed := p.2.takeWhile Char.isDigit
      if ed = [] ∨ p.2.dropWhile Char.isDigit ≠ [] then none
      else some (if p.1 then mant / 10 ^ decimalVal ed
                 else mant * 10 ^ decimalVal ed)
    else none

/-- Python `float(text)` on finite decimal literals, as a rational
(`none` = `ValueError`).  Non-finite literals (`inf` variants) and
underscore digit grouping are outside the rational model and parse as
failures; neither reaches this point in `parse_number` on the values the
claims concern. -/
def pyFloat? (cs : List Char) : Option ℚ :=
  let sp := splitSign cs
  let ip := sp.2.takeWhile Char.isDigit
  let r1 := sp.2.dropWhile Char.isDigit
  let fr := splitFrac r1
  if ip = [] ∧ fr.1 = [] then none
  else parseExp
    (sp.1 * ((decimalVal ip : ℚ) + (decimalVal fr.1 : ℚ) / 10 ^ fr.1.length))
    fr.2

/-- `parse_number(value)` (main.py lines 139-160).  A missing cell (`NaN`)
maps to 0 in the rational embedding; the code returns `NaN` there (it is
a float), which like 0 fails the strictly-positive post-filter, so the
observable behaviour of `normalize_dataset` is unchanged. -/
def parse_number (value : Cell) : ℚ :=
  match value with
  | .pynone => 0
  | .int n => (n : ℚ)
  | .num q => q
  | .blank => 0
  | _ =>
    let text := pstrip (pyStr value).data
    if text = [] then 0
    else if normalize_text (.str (String.mk text)) ∈
        (["nan", "none", "null"] : List String) then 0
    else
      let t1 := text.filter (fun c => ¬ (c = '€' ∨ c = ' '))
      let t2 :=
        if ',' ∈ t1 ∧ '.' ∈ t1 then
          if rfindIdx t1 '.' < rfindIdx t1 ',' then
            (t1.filter (fun c => ¬ c = '.')).map
              (fun c => if c = ',' then '.' else c)
          else t1.filter (fun c => ¬ c = ',')
        else t1.map (fun c => if c = ',' then '.' else c)
      (pyFloat? t2).getD 0

/-- The per-cell action of `clean_text_series` (main.py lines 171-174):
`fillna("")`, stringify, strip, and blank out case-insensitive
`nan`/`none`/`null`. -/
def clean_text_cell (c : Cell) : String :=
  let s := pstrip (if isna c then "" else pyStr c).data
  let low := s.map pyLower
  if low = "nan".data ∨ low = "none".data ∨ low = "null".data then ""
  else String.mk s

/-- `Series.ffill` carrying an optional last non-missing value. -/
def ffillAux : Option Cell → List Cell → List Cell
  | _, [] => []
  | last, c :: rest =>
    if isna c then
      match last with
      | some p => p :: ffillAux (some p) rest
      | none => c :: ffillAux none rest
    else c :: ffillAux (some c) rest

/-- `Series.ffill`: replace each missing value by the preceding
non-missing value; leading missing values stay missing. -/
def ffill (cells : List Cell) : List Cell := ffillAux none cells

/-- A normalized output record (one row of the normalized DataFrame). -/
structure NRec where
  comercial : String
  cliente : String
  mes : String
  facturacion_bruta : ℚ
deriving DecidableEq

/-- Pointwise combination of four equal-length columns into rows
(`pd.DataFrame` of four aligned series). -/
def zip4With (f : α → β → γ → δ → ε) :
    List α → List β → List γ → List δ → List ε
  | a :: as, b :: bs, c :: cs, d :: ds =>
    f a b c d :: zip4With f as bs cs ds
  | _, _, _, _ => []

/-- The records built by the long branch of `normalize_dataset`
(main.py lines 298-305), before the post-filter. -/
def build_long (df : RawTable) (sp cl mo rv : String) : List NRec :=
  zip4With (fun a b c d => ⟨a, b, c, d⟩)
    ((ffill (colCells df sp)).map clean_text_cell)
    ((colCells df cl).map clean_text_cell)
    ((colCells df mo).map (fun c => normalize_month_year c none))
    ((colCells df rv).map parse_number)

/-- One month column's records in the wide branch (main.py lines 315-322):
the month label is the normalized column header, broadcast to every
row. -/
def build_wide_col (df : RawTable) (sp cl col : String) : List NRec :=
  zip4With (fun a b c d => ⟨a, b, c, d⟩)
    ((ffill (colCells df sp)).map clean_text_cell)
    ((colCells df cl).map clean_text_cell)
    ((colCells df sp).map (fun _ => normalize_month_year (.str col) none))
    ((colCells df col).map parse_number)

/-- The records built by the wide branch of `normalize_dataset`
(main.py lines 312-326): concatenation over the month columns,
preserving per-column row order. -/
def build_wide (df : RawTable) (sp cl : String) (m_cols : List String) :
    List NRec :=
  (m_cols.map (build_wide_col df sp cl)).flatten

/-- The post-filter of `normalize_dataset` (main.py lines 328-331): drop
records with empty comercial, cliente or mes, or non-positive
revenue. -/
def postFilter (recs : List NRec) : List NRec :=
  ((((recs.filter (fun r => !r.comercial.isEmpty)).filter
      (fun r => !r.cliente.isEmpty)).filter
      (fun r => !r.mes.isEmpty)).filter
      (fun r => decide (0 < r.facturacion_bruta)))

/-- Python `a or b` on strings: the empty string is falsy. -/
def pyOrS (a b : String) : String := if a = "" then b else a

/-- Python `a or b` on lists: the empty list is falsy. -/
def pyOrL (a b : List String) : List String := if a = [] then b else a

/-- The effective mapping values computed at main.py lines 264-269: each
column field and the month-column list are `user or detected`; the
structure is taken from the sanitized user mapping alone. -/
def effective_fields (df : RawTable) (mapping : Option RawMapping) : Mapping :=
  let detected := detect_mapping df
  let user_mapping := sanitize_mapping (mapping.getD RawMapping.empty)
    df.headers
  { struct := user_mapping.struct,
    comercial := pyOrS user_mapping.comercial detected.comercial,
    cliente := pyOrS user_mapping.cliente detected.cliente,
    mes := pyOrS user_mapping.mes detected.mes,
    facturacion := pyOrS user_mapping.facturacion detected.facturacion,
    month_columns := pyOrL user_mapping.month_columns
      detected.month_columns }

/-- The defensive fallback of main.py lines 271-278: when salesperson or
client is unresolved and month columns were detected, take the first two
native-order columns that are neither detected month columns nor named
"total". -/
def applyFallback (df : RawTable) (detected : Mapping) (sp cl : String) :
    String × String :=
  if (sp = "" ∨ cl = "") ∧ detected.month_columns ≠ [] then
    let non_month := df.headers.filter (fun c =>
      decide (c ∉ detected.month_columns) &&
      decide (normalize_text (.str c) ≠ "total"))
    if 2 ≤ non_month.length then
      (pyOrS sp (non_month.getD 0 ""), pyOrS cl (non_month.getD 1 ""))
    else (sp, cl)
  else (sp, cl)

/-- The structure resolution of main.py lines 289-290: `"unknown"`
resolves to `"long"` exactly when both month and revenue columns are
non-empty, else `"wide"`. -/
def resolve_structure (s month_col revenue_col : String) : String :=
  if s = "unknown" then
    if month_col ≠ "" ∧ revenue_col ≠ "" then "long" else "wide"
  else s

/-- `normalize_dataset(df, mapping)` (main.py lines 259-332); an
`HTTPException` is an `Except.error` (messages abbreviated). -/
def normalize_dataset (df : RawTable) (mapping : Option RawMapping) :
    Except String (List NRec) :=
  let detected := detect_mapping df
  let eff := effective_fields df mapping
  let p := applyFallback df detected eff.comercial eff.cliente
  if p.1 = "" ∨ p.2 = "" then
    .error "no pude detectar columnas de comercial y cliente"
  else
    let s := resolve_structure eff.struct eff.mes eff.facturacion
    if s = "long" then
      if eff.mes = "" ∨ eff.facturacion = "" then
        .error "para formato long debes indicar las columnas de mes y facturacion"
      else .ok (postFilter (build_long df p.1 p.2 eff.mes eff.facturacion))
    else
      if eff.month_columns = [] then
        .error "para formato wide debes seleccionar columnas de meses"
      else .ok (postFilter (build_wide df p.1 p.2 eff.month_columns))

/-- Round half to even on rationals (Python `round` on an exactly
representable value). -/
def roundHalfEven (q : ℚ) : ℤ :=
  let f := ⌊q⌋
  let r := q - (f : ℚ)
  if r < 1 / 2 then f
  else if 1 / 2 < r then f + 1
  else if f % 2 = 0 then f else f + 1

/-- Python `round(x, 2)` under the rational embedding. -/
def round2 (q : ℚ) : ℚ := (roundHalfEven (q * 100) : ℚ) / 100

/-- The comercial/mes filters of `analyze` (main.py lines 466-471):
restrict by case/accent-insensitive membership when the respective
filter list is non-empty. -/
def analyze_filter (recs : List NRec) (comerciales meses : List String) :
    List NRec :=
  let r1 :=
    if comerciales ≠ [] then
      recs.filter (fun r =>
        (comerciales.map (fun c => normalize_text (.str c))).contains
          (normalize_text (.str r.comercial)))
    else recs
  if meses ≠ [] then
    r1.filter (fun r =>
      (meses.map (fun m0 => normalize_text (.str m0))).contains
        (normalize_text (.str r.mes)))
  else r1

/-- One displayed row of the analysis response, with per-row rounded
values. -/
structure AnalyzedRow where
  comercial : String
  cliente : String
  mes : String
  facturacion_bruta : ℚ
  comision_eur : ℚ
deriving DecidableEq

/-- The analysis tail of `analyze` (main.py lines 466-502): filter, add
the commission column, round each displayed row to 2 decimals, and round
the totals of the unrounded columns once.  Returns (rows, total
facturacion, total comision, registros). -/
def analyze_result (recs : List NRec) (comerciales meses : List String)
    (rate : ℚ) : List AnalyzedRow × ℚ × ℚ × Nat :=
  let filtered := analyze_filter recs comerciales meses
  let withCom := filtered.map (fun r => (r, r.facturacion_bruta * (rate / 100)))
  let total_facturacion :=
    round2 ((withCom.map (fun p => p.1.facturacion_bruta)).sum)
  let total_comision := round2 ((withCom.map (fun p => p.2)).sum)
  let rows := withCom.map (fun p =>
    (⟨p.1.comercial, p.1.cliente, p.1.mes, round2 p.1.facturacion_bruta,
      round2 p.2⟩ : AnalyzedRow))
  (rows, total_facturacion, total_comision, rows.length)

/-- Field-by-field coalesce in the spec's words: the override field wins
when non-empty, otherwise the detected value is used. -/
def coalesce_field (override detected : String) : String :=
  if override ≠ "" then override else detected

/-- Coalesce for the month-column list: a non-empty override list wins. -/
def coalesce_cols (override detected : List String) : List String :=
  if override ≠ [] then override else detected

/-- The spec's merge of a sanitized override mapping with a detected
mapping: a field-by-field coalesce over all six fields. -/
def merge_mapping (override detected : Mapping) : Mapping :=
  { struct := coalesce_field override.struct detected.struct,
    comercial := coalesce_field override.comercial detected.comercial,
    cliente := coalesce_field override.cliente detected.cliente,
    mes := coalesce_field override.mes detected.mes,
    facturacion := coalesce_field override.facturacion detected.facturacion,
    month_columns := coalesce_cols override.month_columns
      detected.month_columns }

/-- Eligibility for the defensive fallback: a column that is neither a
detected month column nor named "total" (case/accent-insensitively). -/
def FallbackP (detected : Mapping) (c : String) : Prop :=
  c ∉ detected.month_columns ∧ normalize_text (.str c) ≠ "total"

/-- What the defensive fallback is claimed to do, given ≥ 2 eligible
columns: resolved roles are kept; an unresolved salesperson becomes the
leftmost eligible column; an unresolved client becomes the second
eligible column (in the table's native column order). -/
def FallbackSpec (df : RawTable) (detected : Mapping) (sp cl : String) :
    Prop :=
  (sp ≠ "" → (applyFallback df detected sp cl).1 = sp) ∧
  (cl ≠ "" → (applyFallback df detected sp cl).2 = cl) ∧
  (sp = "" → ∃ i : Nat,
    df.headers[i]? = some (applyFallback df detected sp cl).1 ∧
    FallbackP detected (applyFallback df detected sp cl).1 ∧
    ∀ (k : Nat) (c : String), k < i → df.headers[k]? = some c →
      ¬ FallbackP detected c) ∧
  (cl = "" → ∃ (i j : Nat) (c1 : String), i < j ∧
    df.headers[i]? = some c1 ∧ FallbackP detected c1 ∧
    df.headers[j]? = some (applyFallback df detected sp cl).2 ∧
    FallbackP detected (applyFallback df detected sp cl).2 ∧
    (∀ (k : Nat) (c : String), k < i → df.headers[k]? = some c →
      ¬ FallbackP detected c) ∧
    (∀ (k : Nat) (c : String), i < k → k < j → df.headers[k]? = some c →
      ¬ FallbackP detected c))

theorem pick_mem (allowed : List String) (v : Option PyVal)
    (h : pick allowed v ≠ "") : pick allowed v ∈ allowed := by
  match v with
  | none => simp [pick] at h
  | some (.str s) =>
    unfold pick at h ⊢
    by_cases hs : s ∈ allowed
    · simp [hs]
    · simp [hs] at h
  | some (.num q) => simp [pick] at h
  | some (.boolean b) => simp [pick] at h
  | some (.list xs) => simp [pick] at h
  | some .pynone => simp [pick] at h

theorem pick_absent (allowed : List String) (s : String)
    (h : s ∉ allowed) : pick allowed (some (.str s)) = "" := by
  simp [pick, h]

theorem sanitize_struct_eq (m : RawMapping) (cols : List String) :
    (sanitize_mapping m cols).struct =
      match m.struct.getD (.str "unknown") with
      | .str v => if v = "long" ∨ v = "wide" ∨ v = "unknown" then v
          else "unknown"
      | _ => "unknown" := rfl

theorem sanitize_month_cols_eq (m : RawMapping) (cols : List String) :
    (sanitize_mapping m cols).month_columns =
      match m.month_columns.getD (.list []) with
      | .list xs => xs.filterMap (fun x =>
          match x with
          | .str s => if s ∈ cols then some s else none
          | _ => none)
      | _ => [] := rfl

theorem sanitize_struct_cases (m : RawMapping) (cols : List String) :
    (sanitize_mapping m cols).struct = "long" ∨
    (sanitize_mapping m cols).struct = "wide" ∨
    (sanitize_mapping m cols).struct = "unknown" := by
  rw [sanitize_struct_eq]
  cases hx : m.struct.getD (.str "unknown") with
  | str v =>
    by_cases hv : v = "long" ∨ v = "wide" ∨ v = "unknown"
    · rcases hv with h | h | h <;> simp [h]
    · simp [hv]
  | num q => simp
  | boolean b => simp
  | list xs => simp
  | pynone => simp

/-- C7: `sanitize_mapping` is total on untrusted input and yields only
valid references: every non-empty column field names an available
column, a reference to an absent column becomes the empty string, the
structure is one of long/wide/unknown (defaulting to unknown), and the
month-column list only contains available columns. -/
theorem sanitize_mapping_safe (m : RawMapping) (cols : List String) :
    ((sanitize_mapping m cols).comercial ≠ "" →
      (sanitize_mapping m cols).comercial ∈ cols) ∧
    ((sanitize_mapping m cols).cliente ≠ "" →
      (sanitize_mapping m cols).cliente ∈ cols) ∧
    ((sanitize_mapping m cols).mes ≠ "" →
      (sanitize_mapping m cols).mes ∈ cols) ∧
    ((sanitize_mapping m cols).facturacion ≠ "" →
      (sanitize_mapping m cols).facturacion ∈ cols) ∧
    ((sanitize_mapping m cols).struct = "long" ∨
      (sanitize_mapping m cols).struct = "wide" ∨
      (sanitize_mapping m cols).struct = "unknown") ∧
    (m.struct = none → (sanitize_mapping m cols).struct = "unknown") ∧
    (∀ c ∈ (sanitize_mapping m cols).month_columns, c ∈ cols) ∧
    (∀ s : String, m.comercial = some (.str s) → s ∉ cols →
      (sanitize_mapping m cols).comercial = "") := by
  refine ⟨fun h => pick_mem _ _ h, fun h => pick_mem _ _ h,
    fun h => pick_mem _ _ h, fun h => pick_mem _ _ h,
    sanitize_struct_cases m cols, ?_, ?_, ?_⟩
  · intro hs
    rw [sanitize_struct_eq, hs]
    simp
  · intro c hc
    rw [sanitize_month_cols_eq] at hc
    revert hc
    split
    · intro hc
      rcases List.mem_filterMap.mp hc with ⟨x, _, hx⟩
      rcases x with s | q | b | ys | _
      · by_cases hs : s ∈ cols
        · simp only [hs, if_pos, Option.some.injEq] at hx
          cases hx
          exact hs
        · simp [hs] at hx
      all_goals simp at hx
    · simp
  · intro s hs hn
    have : (sanitize_mapping m cols).comercial = pick cols m.comercial := rfl
    rw [this, hs]
    exact pick_absent cols s hn

/-- Witness for C7 at a concrete malformed mapping: a comercial reference
to an absent column sanitizes to the empty string, a wrong-typed
month-column entry is dropped, and a missing structure defaults to
unknown. -/
theorem sanitize_mapping_safe_witness :
    (sanitize_mapping
        ⟨none, some (.str "Zeta"), some (.num 3), none, none,
          some (.list [.str "A", .boolean true, .str "Zeta"])⟩
        ["A", "B"]).comercial = "" ∧
    (sanitize_mapping
        ⟨none, some (.str "Zeta"), some (.num 3), none, none,
          some (.list [.str "A", .boolean true, .str "Zeta"])⟩
        ["A", "B"]).struct = "unknown" ∧
    (∀ c ∈ (sanitize_mapping
        ⟨none, some (.str "Zeta"), some (.num 3), none, none,
          some (.list [.str "A", .boolean true, .str "Zeta"])⟩
        ["A", "B"]).month_columns, c ∈ ["A", "B"]) := by
  have h := sanitize_mapping_safe
    ⟨none, some (.str "Zeta"), some (.num 3), none, none,
      some (.list [.str "A", .boolean true, .str "Zeta"])⟩
    ["A", "B"]
  exact ⟨h.2.2.2.2.2.2.2 "Zeta" rfl (by decide), h.2.2.2.2.2.1 rfl,
    h.2.2.2.2.2.2.1⟩

theorem pyOrS_eq_coalesce (a b : String) : pyOrS a b = coalesce_field a b := by
  unfold pyOrS coalesce_field
  by_cases h : a = "" <;> simp [h]

theorem pyOrL_eq_coalesce (a b : List String) :
    pyOrL a b = coalesce_cols a b := by
  unfold pyOrL coalesce_cols
  by_cases h : a = [] <;> simp [h]

theorem sanitize_struct_ne_empty (m : RawMapping) (cols : List String) :
    (sanitize_mapping m cols).struct ≠ "" := by
  rcases sanitize_struct_cases m cols with h | h | h <;> rw [h] <;> decide

/-- C2: the effective mapping applied by `normalize_dataset` is a
field-by-field coalesce of the sanitized override mapping with the
detected mapping (for the structure field the sanitized override is
never empty, so the coalesce degenerates to the override, exactly as the
code's direct assignment). -/
theorem effective_mapping_is_coalesce (df : RawTable)
    (m : Option RawMapping) :
    effective_fields df m =
      merge_mapping (sanitize_mapping (m.getD RawMapping.empty) df.headers)
        (detect_mapping df) := by
  unfold effective_fields merge_mapping
  have hs := sanitize_struct_ne_empty (m.getD RawMapping.empty) df.headers
  simp only [pyOrS_eq_coalesce, pyOrL_eq_coalesce]
  congr 1
  unfold coalesce_field
  simp [hs]

theorem mem_upsert (l : List (String × String)) (k v : String)
    (p : String × String) (h : p ∈ upsert l k v) :
    p ∈ l ∨ p = (k, v) := by
  induction l with
  | nil =>
    simp [upsert] at h
    simp [h]
  | cons hd t ih =>
    unfold upsert at h
    by_cases hk : hd.1 = k
    · simp only [hk, if_pos] at h
      rcases List.mem_cons.mp h with h1 | h1
      · right; exact h1
      · left; exact List.mem_cons_of_mem _ h1
    · simp only [hk, if_neg, not_false_iff] at h
      rcases List.mem_cons.mp h with h1 | h1
      · left
        rw [h1]
        exact Prod.mk.eta ▸ List.mem_cons_self _ _
      · rcases ih h1 with h2 | h2
        · left; exact List.mem_cons_of_mem _ h2
        · right; exact h2

theorem buildNormalizedMap_key (cols : List String)
    (p : String × String) (h : p ∈ buildNormalizedMap cols) :
    p.1 = normalize_text (.str p.2) := by
  have hgen : ∀ (acc : List (String × String)),
      (∀ q ∈ acc, q.1 = normalize_text (.str q.2)) →
      ∀ q ∈ cols.foldl
        (fun a c => upsert a (normalize_text (.str c)) c) acc,
        q.1 = normalize_text (.str q.2) := by
    clear h
    induction cols with
    | nil => intro acc hacc q hq; exact hacc q hq
    | cons c t ih =>
      intro acc hacc q hq
      refine ih (upsert acc (normalize_text (.str c)) c) ?_ q hq
      intro r hr
      rcases mem_upsert _ _ _ _ hr with h1 | h1
      · exact hacc r h1
      · rw [h1]
  exact hgen [] (by simp) p h

theorem lookup_mem_pairs (l : List (String × String)) (k v : String)
    (h : l.lookup k = some v) : (k, v) ∈ l := by
  induction l with
  | nil => simp [List.lookup] at h
  | cons hd t ih =>
    unfold List.lookup at h
    by_cases hk : (k == hd.1) = true
    · rw [hk] at h
      simp only [] at h
      have hk2 : k = hd.1 := eq_of_beq hk
      have hv : hd.2 = v := by
        cases h
        rfl
      have hp : (k, v) = hd := by
        rw [hk2, ← hv]
      rw [hp]
      exact List.mem_cons_self _ _
    · have hk2 : (k == hd.1) = false := by
        simpa using hk
      rw [hk2] at h
      simp only [] at h
      exact List.mem_cons_of_mem _ (ih h)

theorem normalize_text_empty : normalize_text (.str "") = "" := rfl

theorem listContainsSub_nil (p : List Char) :
    listContainsSub [] p = p.isEmpty := by
  unfold listContainsSub
  cases p <;> simp [List.isPrefixOf]

theorem find_column_eq (df : RawTable) (cands : List String) :
    find_column df cands =
      match cands.findSome? (fun cand =>
          (buildNormalizedMap df.headers).lookup cand) with
      | some c => some c
      | none =>
        (buildNormalizedMap df.headers).findSome? (fun p =>
          if cands.any (fun cand => listContainsSub p.1.data cand.data)
          then some p.2 else none) := rfl

theorem find_column_ne_empty (df : RawTable) (cands : List String)
    (hc : ∀ cand ∈ cands, cand ≠ "") (c : String)
    (h : find_column df cands = some c) : c ≠ "" := by
  rw [find_column_eq] at h
  cases h1 : cands.findSome? (fun cand =>
      (buildNormalizedMap df.headers).lookup cand) with
  | some c0 =>
    rw [h1] at h
    simp only [] at h
    cases h
    rcases List.exists_of_findSome?_eq_some h1 with ⟨cand, hmem, hl⟩
    have hkey := buildNormalizedMap_key df.headers (cand, c)
      (lookup_mem_pairs _ _ _ hl)
    intro hc0
    rw [hc0] at hkey
    exact hc cand hmem (by simpa [normalize_text_empty] using hkey)
  | none =>
    rw [h1] at h
    simp only [] at h
    rcases List.exists_of_findSome?_eq_some h with ⟨p, hmem, hp⟩
    by_cases hany :
        (cands.any (fun cand => listContainsSub p.1.data cand.data)) = true
    · rw [if_pos hany] at hp
      cases hp
      have hkey := buildNormalizedMap_key df.headers p hmem
      intro hc0
      rw [hc0, normalize_text_empty] at hkey
      rcases List.any_eq_true.mp hany with ⟨cand, hcmem, hsub⟩
      have hdata : p.1.data = [] := by
        rw [hkey]
      rw [hdata, listContainsSub_nil] at hsub
      have hcand : cand = "" := by
        cases cand with
        | mk d =>
          cases d with
          | nil => rfl
          | cons a t => simp [String.isEmpty, String.length] at hsub
      exact hc cand hcmem hcand
    · rw [if_neg hany] at hp
      cases hp

theorem detect_struct_eq (df : RawTable) :
    (detect_mapping df).struct =
      if optStrTruthy (find_column df MES_KEYS) &&
          optStrTruthy (find_column df FACTURACION_KEYS) then "long"
      else if !(month_columns df).isEmpty then "wide"
      else "unknown" := rfl

theorem optStrTruthy_find (df : RawTable) (cands : List String)
    (hc : ∀ cand ∈ cands, cand ≠ "") :
    optStrTruthy (find_column df cands) = true ↔
      find_column df cands ≠ none := by
  cases h : find_column df cands with
  | none => simp [optStrTruthy]
  | some c =>
    have hne := find_column_ne_empty df cands hc c h
    simp only [optStrTruthy, ne_eq, Bool.not_eq_true']
    constructor
    · intro _ hsome
      cases hsome
    · intro _
      rw [Bool.eq_false_iff]
      intro hI
      exact hne ((String.isEmpty_iff c).mp hI)

/-- C5: `detect_mapping` infers structure long exactly when both a month
column and a revenue column are found, else wide exactly when a
month-named column exists, else unknown; and in `normalize_dataset` an
unknown effective structure resolves to long exactly when both month and
revenue columns are resolved, else wide. -/
theorem structure_inference (df : RawTable) :
    ((detect_mapping df).struct = "long" ↔
      find_column df MES_KEYS ≠ none ∧
      find_column df FACTURACION_KEYS ≠ none) ∧
    ((detect_mapping df).struct = "wide" ↔
      ¬(find_column df MES_KEYS ≠ none ∧
        find_column df FACTURACION_KEYS ≠ none) ∧
      month_columns df ≠ []) ∧
    ((detect_mapping df).struct = "unknown" ↔
      ¬(find_column df MES_KEYS ≠ none ∧
        find_column df FACTURACION_KEYS ≠ none) ∧
      month_columns df = []) ∧
    (∀ mo rv : String, resolve_structure "unknown" mo rv =
      if mo ≠ "" ∧ rv ≠ "" then "long" else "wide") ∧
    (∀ s mo rv : String, s ≠ "unknown" → resolve_structure s mo rv = s) := by
  have hmes := optStrTruthy_find df MES_KEYS (by decide)
  have hfac := optStrTruthy_find df FACTURACION_KEYS (by decide)
  refine ⟨?_, ?_, ?_, fun mo rv => by simp [resolve_structure],
    fun s mo rv hs => by simp [resolve_structure, hs]⟩ <;>
    rw [detect_struct_eq, ← hmes, ← hfac] <;>
    by_cases h1 : optStrTruthy (find_column df MES_KEYS) = true <;>
    by_cases h2 : optStrTruthy (find_column df FACTURACION_KEYS) = true <;>
    by_cases h3 : month_columns df = [] <;>
    simp [h1, h2, h3]

/-- Witness for C5's hypothesis-bearing conjunct: a non-unknown structure
is left unchanged by the resolution step. -/
theorem structure_inference_witness :
    resolve_structure "wide" "Mes" "Total" = "wide" :=
  (structure_inference ⟨[], []⟩).2.2.2.2 "wide" "Mes" "Total" (by decide)

theorem ne_empty_of_not_isEmpty (s : String) (h : (!s.isEmpty) = true) :
    s ≠ "" := by
  intro he
  subst he
  have hf : (!("" : String).isEmpty) = false := by decide
  rw [hf] at h
  cases h

theorem mem_postFilter (l : List NRec) (r : NRec) (hr : r ∈ postFilter l) :
    r.comercial ≠ "" ∧ r.cliente ≠ "" ∧ r.mes ≠ "" ∧
      0 < r.facturacion_bruta := by
  unfold postFilter at hr
  simp only [List.mem_filter] at hr
  obtain ⟨⟨⟨⟨_, h1⟩, h2⟩, h3⟩, h4⟩ := hr
  exact ⟨ne_empty_of_not_isEmpty _ h1, ne_empty_of_not_isEmpty _ h2,
    ne_empty_of_not_isEmpty _ h3, of_decide_eq_true h4⟩

/-- C1: every record in a successful `normalize_dataset` output satisfies
the NormalizedRecord invariant: non-empty comercial, cliente and mes, and
strictly positive facturacion_bruta (in particular zero-revenue records
never appear). -/
theorem normalize_dataset_invariant (df : RawTable) (m : Option RawMapping)
    (recs : List NRec) (h : normalize_dataset df m = .ok recs) :
    ∀ r ∈ recs, r.comercial ≠ "" ∧ r.cliente ≠ "" ∧ r.mes ≠ "" ∧
      0 < r.facturacion_bruta := by
  simp only [normalize_dataset] at h
  split at h
  · cases h
  · split at h
    · split at h
      · cases h
      · cases h
        intro r hr
        exact mem_postFilter _ r hr
    · split at h
      · cases h
      · cases h
        intro r hr
        exact mem_postFilter _ r hr

/-- Witness for C1 on a concrete long-layout table: the single surviving
record satisfies the invariant (its zero-revenue sibling is dropped). -/
theorem normalize_dataset_invariant_witness :
    normalize_dataset
        ⟨["Comercial", "Cliente", "Mes", "Facturacion"],
         [[.str "Ana", .str "Acme", .str "enero", .int 100],
          [.str "Luz", .str "Zeta", .str "febrero", .int 0]]⟩ none =
      .ok [⟨"Ana", "Acme", "enero", 100⟩] ∧
    ("Ana" : String) ≠ "" ∧ ("Acme" : String) ≠ "" ∧
    ("enero" : String) ≠ "" ∧ (0 : ℚ) < 100 := by
  have hok : normalize_dataset
      ⟨["Comercial", "Cliente", "Mes", "Facturacion"],
       [[.str "Ana", .str "Acme", .str "enero", .int 100],
        [.str "Luz", .str "Zeta", .str "febrero", .int 0]]⟩ none =
      .ok [⟨"Ana", "Acme", "enero", 100⟩] := by rfl
  have h := normalize_dataset_invariant _ none _ hok
    ⟨"Ana", "Acme", "enero", 100⟩ (by simp)
  exact ⟨hok, h⟩

/-- C9: in the analyze computation, total facturacion and total comision
are each the exact sum of the unrounded per-row values over the filtered
records, rounded once at the end; 3 records with revenues 100, 200, 300
at rate 10 give totals 600.00 and 60.00 with 3 registros; and (last
conjunct) the total is not in general the sum of the rounded per-row
values. -/
theorem totals_sum_then_round :
    (∀ (recs : List NRec) (comerciales meses : List String) (rate : ℚ),
      (analyze_result recs comerciales meses rate).2.1 =
        round2 (((analyze_filter recs comerciales meses).map
          (fun r => r.facturacion_bruta)).sum) ∧
      (analyze_result recs comerciales meses rate).2.2.1 =
        round2 (((analyze_filter recs comerciales meses).map
          (fun r => r.facturacion_bruta * (rate / 100))).sum) ∧
      (analyze_result recs comerciales meses rate).2.2.2 =
        (analyze_filter recs comerciales meses).length) ∧
    (analyze_result
      [⟨"ana", "acme", "enero 2024", 100⟩,
       ⟨"ana", "beta", "enero 2024", 200⟩,
       ⟨"luz", "gama", "enero 2024", 300⟩] [] [] 10).2 =
      ((600 : ℚ), (60 : ℚ), 3) ∧
    (analyze_result
        [⟨"a", "b", "m", 1004 / 1000⟩, ⟨"a", "b", "m", 1004 / 1000⟩]
        [] [] 5).2.1 ≠
      ((analyze_filter
          [⟨"a", "b", "m", 1004 / 1000⟩, ⟨"a", "b", "m", 1004 / 1000⟩]
          [] []).map (fun r => round2 r.facturacion_bruta)).sum := by
  refine ⟨?_,
    by norm_num [analyze_result, analyze_filter, round2, roundHalfEven],
    ?_⟩
  · intro recs cs ms rate
    refine ⟨?_, ?_, ?_⟩ <;>
      simp only [analyze_result, List.map_map, List.length_map] <;> rfl
  · norm_num [analyze_result, analyze_filter, round2, roundHalfEven]
    norm_num [Int.fract]

theorem yearHead_cons_eq (d1 d2 d3 d4 : Char) (rest : List Char) :
    yearHead (d1 :: d2 :: d3 :: d4 :: rest) =
      if (decide ((d1 = '1' ∧ d2 = '9') ∨ (d1 = '2' ∧ (d2 = '0' ∨ d2 = '1')))
          && d3.isDigit && d4.isDigit &&
          (match rest with | [] => true | c :: _ => !isWordChar c)) = true
      then some (decimalVal [d1, d2, d3, d4]) else none := rfl

theorem yearHead_ge (cs : List Char) (y : Nat) (h : yearHead cs = some y) :
    1900 ≤ y := by
  rcases cs with _ | ⟨d1, _ | ⟨d2, _ | ⟨d3, _ | ⟨d4, rest⟩⟩⟩⟩
  · simp [yearHead] at h
  · simp [yearHead] at h
  · simp [yearHead] at h
  · simp [yearHead] at h
  · rw [yearHead_cons_eq] at h
    split_ifs at h with hcond
    · cases h
      simp only [Bool.and_eq_true, decide_eq_true_eq] at hcond
      obtain ⟨⟨⟨hd, _⟩, _⟩, _⟩ := hcond
      rcases hd with ⟨h1, h2⟩ | ⟨h1, h2⟩
      · subst h1; subst h2
        simp only [decimalVal, List.foldl]
        have e1 : ('1' : Char).toNat = 49 := rfl
        have e2 : ('9' : Char).toNat = 57 := rfl
        rw [e1, e2]
        omega
      · subst h1
        rcases h2 with h2 | h2 <;> subst h2 <;>
          simp only [decimalVal, List.foldl]
        · have e1 : ('2' : Char).toNat = 50 := rfl
          have e2 : ('0' : Char).toNat = 48 := rfl
          rw [e1, e2]
          omega
        · have e1 : ('2' : Char).toNat = 50 := rfl
          have e2 : ('1' : Char).toNat = 49 := rfl
          rw [e1, e2]
          omega

theorem searchYear_ge (cs : List Char) : ∀ (prev : Option Char) (y : Nat),
    searchYear prev cs = some y → 1900 ≤ y := by
  induction cs with
  | nil => intro prev y h; simp [searchYear] at h
  | cons c rest ih =>
    intro prev y h
    unfold searchYear at h
    split at h
    · cases hy : yearHead (c :: rest) with
      | some y0 =>
        rw [hy] at h
        simp only [Option.some.injEq] at h
        subst h
        exact yearHead_ge _ _ hy
      | none =>
        rw [hy] at h
        exact ih _ _ h
    · exact ih _ _ h

theorem extract_year_date_eq (yy mm dd : Nat) :
    extract_year (.date yy mm dd) =
      if 1900 ≤ yy ∧ yy ≤ 2100 then some yy
      else searchYear none (pyStr (.date yy mm dd)).data := rfl

theorem extract_year_ge (v : Cell) (y : Nat) (h : extract_year v = some y) :
    1900 ≤ y := by
  rcases v with s | n | q | ⟨yy, mm, dd⟩ | _ | _
  · exact searchYear_ge _ _ _ h
  · exact searchYear_ge _ _ _ h
  · exact searchYear_ge _ _ _ h
  · rw [extract_year_date_eq] at h
    split_ifs at h with hc
    · cases h
      exact hc.1
    · exact searchYear_ge _ _ _ h
  · exact searchYear_ge _ _ _ h
  · simp [extract_year] at h

theorem normalize_month_year_eq (v : Cell) (fb : Option Nat) :
    normalize_month_year v fb =
      if normalize_month v ∈ MONTHS_ES then
        match (match extract_year v with
          | some y => some y
          | none => fb) with
        | some y => if y = 0 then normalize_month v
            else normalize_month v ++ " " ++ toString y
        | none => normalize_month v
      else "" := rfl

/-- C8: `normalize_month_year` rejects non-months (empty result when the
computed month is not canonical); otherwise the result is
"month year" with the year from `extract_year`, or from the fallback
when extraction fails, and the bare month name when no year is
available. -/
theorem normalize_month_year_spec (v : Cell) (fb : Option Nat) :
    (normalize_month v ∉ MONTHS_ES → normalize_month_year v fb = "") ∧
    (normalize_month v ∈ MONTHS_ES →
      (∀ y : Nat, extract_year v = some y →
        normalize_month_year v fb =
          normalize_month v ++ " " ++ toString y) ∧
      (extract_year v = none → ∀ y : Nat, fb = some y → y ≠ 0 →
        normalize_month_year v fb =
          normalize_month v ++ " " ++ toString y) ∧
      (extract_year v = none → fb = none →
        normalize_month_year v fb = normalize_month v)) := by
  constructor
  · intro hnm
    rw [normalize_month_year_eq, if_neg hnm]
  · intro hm
    refine ⟨?_, ?_, ?_⟩
    · intro y hy
      rw [normalize_month_year_eq, if_pos hm, hy]
      have hy0 : ¬ y = 0 := by
        have := extract_year_ge v y hy
        omega
      simp only [hy0, if_neg, not_false_iff]
    · intro hn y hfb hy0
      rw [normalize_month_year_eq, if_pos hm, hn, hfb]
      simp only [hy0, if_neg, not_false_iff]
    · intro hn hfb
      rw [normalize_month_year_eq, if_pos hm, hn, hfb]

/-- Witness for C8: a month with an embedded year formats as
"month year"; a bare alias with no year stays a bare month. -/
theorem normalize_month_year_spec_witness :
    normalize_month_year (.str "Enero 2024") none =
      normalize_month (.str "Enero 2024") ++ " " ++ toString 2024 ∧
    normalize_month_year (.str "ene") none =
      normalize_month (.str "ene") := by
  constructor
  · exact ((normalize_month_year_spec (.str "Enero 2024") none).2
      (by decide)).1 2024 (by decide)
  · exact ((normalize_month_year_spec (.str "ene") none).2
      (by decide)).2.2 (by decide) rfl

theorem ffillAux_cons_eq (last : Option Cell) (c : Cell) (rest : List Cell) :
    ffillAux last (c :: rest) =
      if isna c = true then
        match last with
        | some p => p :: ffillAux (some p) rest
        | none => c :: ffillAux none rest
      else c :: ffillAux (some c) rest := rfl

theorem getLast?_cons_or (c : α) (l : List α) :
    (c :: l).getLast? = (l.getLast?).or (some c) := by
  cases l with
  | nil => simp
  | cons a t =>
    rw [List.getLast?_cons_cons]
    cases h : (a :: t).getLast? with
    | none =>
      rw [List.getLast?_eq_none_iff] at h
      cases h
    | some x => simp

theorem filter_cons_pos (c : Cell) (l : List Cell) (h : (!isna c) = true) :
    (c :: l).filter (fun x => !isna x) = c :: l.filter (fun x => !isna x) := by
  simp [List.filter_cons, h]

theorem filter_cons_neg (c : Cell) (l : List Cell) (h : (!isna c) = false) :
    (c :: l).filter (fun x => !isna x) = l.filter (fun x => !isna x) := by
  simp [List.filter_cons, h]

theorem ffillAux_getElem (cells : List Cell) : ∀ (last : Option Cell)
    (i : Nat) (ci : Cell), cells[i]? = some ci →
    (ffillAux last cells)[i]? = some (
      if isna ci then
        ((((cells.take i).filter (fun x => !isna x)).getLast?).or last).getD
          ci
      else ci) := by
  induction cells with
  | nil => intro last i ci h; simp at h
  | cons c rest ih =>
    intro last i ci h
    rw [ffillAux_cons_eq]
    cases i with
    | zero =>
      have hcc : c = ci := by simpa using h
      rw [← hcc] at h ⊢
      by_cases hna : isna c = true
      · rw [if_pos hna]
        cases last with
        | some p => simp [hna]
        | none => simp [hna]
      · rw [if_neg hna]
        simp [hna]
    | succ i' =>
      have h' : rest[i']? = some ci := by simpa using h
      by_cases hna : isna c = true
      · have hfc : (!isna c) = false := by rw [hna]; rfl
        rw [if_pos hna]
        cases last with
        | some p =>
          have hstep : (p :: ffillAux (some p) rest)[i' + 1]? =
              (ffillAux (some p) rest)[i']? := by simp
          rw [hstep, ih (some p) i' ci h', List.take_succ_cons,
            filter_cons_neg _ _ hfc]
        | none =>
          have hstep : (c :: ffillAux none rest)[i' + 1]? =
              (ffillAux none rest)[i']? := by simp
          rw [hstep, ih none i' ci h', List.take_succ_cons,
            filter_cons_neg _ _ hfc]
      · have hcF : isna c = false := Bool.eq_false_iff.mpr hna
        have hfc : (!isna c) = true := by rw [hcF]; rfl
        rw [if_neg hna]
        have hstep : (c :: ffillAux (some c) rest)[i' + 1]? =
            (ffillAux (some c) rest)[i']? := by simp
        rw [hstep, ih (some c) i' ci h']
        by_cases hci : isna ci = true
        · rw [if_pos hci, if_pos hci, List.take_succ_cons,
            filter_cons_pos _ _ hfc, getLast?_cons_or, Option.or_assoc,
            Option.or_some]
        · rw [if_neg hci, if_neg hci]

theorem filter_isna_take_nil (l : List Cell) : ∀ (n : Nat),
    (∀ (k : Nat) (ck : Cell), k < n → l[k]? = some ck → isna ck = true) →
    (l.take n).filter (fun x => !isna x) = [] := by
  induction l with
  | nil => intro n _; simp
  | cons c t ih =>
    intro n hmid
    cases n with
    | zero => simp
    | succ n' =>
      have hc : isna c = true := hmid 0 c (Nat.succ_pos n') (by simp)
      have hfc : (!isna c) = false := by rw [hc]; rfl
      rw [List.take_succ_cons, filter_cons_neg _ _ hfc]
      exact ih n' (fun k ck hk hck =>
        hmid (k + 1) ck (Nat.succ_lt_succ hk) (by simpa using hck))

theorem getLast?_filter_take (cells : List Cell) : ∀ (i j : Nat) (cj : Cell),
    j < i → cells[j]? = some cj → isna cj = false →
    (∀ (k : Nat) (ck : Cell), j < k → k < i → cells[k]? = some ck →
      isna ck = true) →
    ((cells.take i).filter (fun x => !isna x)).getLast? = some cj := by
  induction cells with
  | nil => intro i j cj _ hj _ _; simp at hj
  | cons c rest ih =>
    intro i j cj hji hj hjna hmid
    cases i with
    | zero => cases hji
    | succ i' =>
      rw [List.take_succ_cons]
      cases j with
      | zero =>
        have hcc : c = cj := by simpa using hj
        rw [← hcc] at hjna ⊢
        have hfc : (!isna c) = true := by rw [hjna]; rfl
        rw [filter_cons_pos _ _ hfc]
        have hrest : (rest.take i').filter (fun x => !isna x) = [] :=
          filter_isna_take_nil rest i' (fun k ck hk hck =>
            hmid (k + 1) ck (Nat.succ_pos k) (Nat.succ_lt_succ hk)
              (by simpa using hck))
        rw [getLast?_cons_or, hrest]
        simp
      | succ j' =>
        have hj' : rest[j']? = some cj := by simpa using hj
        have hlast := ih i' j' cj (Nat.lt_of_succ_lt_succ hji) hj' hjna
          (fun k ck hk1 hk2 hck =>
            hmid (k + 1) ck (Nat.succ_lt_succ hk1) (Nat.succ_lt_succ hk2)
              (by simpa using hck))
        by_cases hc : (!isna c) = true
        · rw [filter_cons_pos _ _ hc, getLast?_cons_or, hlast]
          simp
        · have hcF : (!isna c) = false := Bool.eq_false_iff.mpr hc
          rw [filter_cons_neg _ _ hcF]
          exact hlast

theorem ffill_carry (cells : List Cell) (i j : Nat) (ci cj : Cell)
    (hj : j < i) (hci : cells[i]? = some ci) (hcina : isna ci = true)
    (hcj : cells[j]? = some cj) (hcjna : isna cj = false)
    (hmid : ∀ (k : Nat) (ck : Cell), j < k → k < i → cells[k]? = some ck →
      isna ck = true) :
    (ffill cells)[i]? = some cj := by
  unfold ffill
  rw [ffillAux_getElem cells none i ci hci,
    getLast?_filter_take cells i j cj hj hcj hcjna hmid]
  simp [hcina]

theorem zip4With_cons_eq (f : α → β → γ → δ → ε) (a0 : α) (as : List α)
    (b0 : β) (bs : List β) (c0 : γ) (cs : List γ) (d0 : δ) (ds : List δ) :
    zip4With f (a0 :: as) (b0 :: bs) (c0 :: cs) (d0 :: ds) =
      f a0 b0 c0 d0 :: zip4With f as bs cs ds := rfl

theorem zip4With_getElem? (f : α → β → γ → δ → ε) (as : List α) :
    ∀ (bs : List β) (cs : List γ) (ds : List δ) (i : Nat) (a : α) (b : β)
    (c : γ) (d : δ), as[i]? = some a → bs[i]? = some b → cs[i]? = some c →
    ds[i]? = some d →
    (zip4With f as bs cs ds)[i]? = some (f a b c d) := by
  induction as with
  | nil => intro bs cs ds i a b c d ha _ _ _; simp at ha
  | cons a0 as ih =>
    intro bs cs ds i a b c d ha hb hc hd
    cases bs with
    | nil => simp at hb
    | cons b0 bs =>
      cases cs with
      | nil => simp at hc
      | cons c0 cs =>
        cases ds with
        | nil => simp at hd
        | cons d0 ds =>
          cases i with
          | zero =>
            have ha0 : a0 = a := by simpa using ha
            have hb0 : b0 = b := by simpa using hb
            have hc0 : c0 = c := by simpa using hc
            have hd0 : d0 = d := by simpa using hd
            rw [zip4With_cons_eq, ← ha0, ← hb0, ← hc0, ← hd0]
            simp
          | succ i' =>
            rw [zip4With_cons_eq, List.getElem?_cons_succ]
            exact ih bs cs ds i' a b c d (by simpa using ha)
              (by simpa using hb) (by simpa using hc) (by simpa using hd)

/-- C3: in the long layout the comercial field is forward-filled: when
the salesperson cell of row `i` is blank and row `j` is the nearest
earlier row with a non-blank salesperson cell, the record built for row
`i` carries the cleaned salesperson value of row `j`. -/
theorem long_forward_fill (df : RawTable) (sp cl mo rv : String)
    (i j : Nat) (ci cj : Cell) (hj : j < i)
    (hci : (colCells df sp)[i]? = some ci) (hcina : isna ci = true)
    (hcj : (colCells df sp)[j]? = some cj) (hcjna : isna cj = false)
    (hmid : ∀ (k : Nat) (ck : Cell), j < k → k < i →
      (colCells df sp)[k]? = some ck → isna ck = true)
    (hcl : i < (colCells df cl).length) (hmo : i < (colCells df mo).length)
    (hrv : i < (colCells df rv).length) :
    ∃ r : NRec, (build_long df sp cl mo rv)[i]? = some r ∧
      r.comercial = clean_text_cell cj := by
  have hff := ffill_carry (colCells df sp) i j ci cj hj hci hcina hcj
    hcjna hmid
  have h1 : ((ffill (colCells df sp)).map clean_text_cell)[i]? =
      some (clean_text_cell cj) := by
    rw [List.getElem?_map, hff]
    rfl
  have h2 : (((colCells df cl)).map clean_text_cell)[i]? =
      some (clean_text_cell ((colCells df cl).get ⟨i, hcl⟩)) := by
    rw [List.getElem?_map, List.getElem?_eq_getElem hcl]
    rfl
  have h3 : (((colCells df mo)).map
      (fun c => normalize_month_year c none))[i]? =
      some (normalize_month_year ((colCells df mo).get ⟨i, hmo⟩) none) := by
    rw [List.getElem?_map, List.getElem?_eq_getElem hmo]
    rfl
  have h4 : (((colCells df rv)).map parse_number)[i]? =
      some (parse_number ((colCells df rv).get ⟨i, hrv⟩)) := by
    rw [List.getElem?_map, List.getElem?_eq_getElem hrv]
    rfl
  exact ⟨_, zip4With_getElem? _ _ _ _ _ i _ _ _ _ h1 h2 h3 h4, rfl⟩

/-- Witness for C3: a long table whose row 2 has a blank comercial cell
yields for row 2 the cleaned comercial value of row 1. -/
theorem long_forward_fill_witness :
    ∃ r : NRec,
      (build_long
        ⟨["Comercial", "Cliente", "Mes", "Facturacion"],
         [[.str "Ana", .str "Acme", .str "enero", .int 100],
          [.blank, .str "Beta", .str "febrero", .int 50]]⟩
        "Comercial" "Cliente" "Mes" "Facturacion")[1]? = some r ∧
      r.comercial = clean_text_cell (.str "Ana") := by
  refine long_forward_fill _ "Comercial" "Cliente" "Mes" "Facturacion"
    1 0 Cell.blank (.str "Ana") (by omega) (by decide) (by decide)
    (by decide) (by decide) ?_ (by decide) (by decide) (by decide)
  intro k ck h1 h2 _
  omega

theorem filter_head_index {α : Type _} (p : α → Bool) (l : List α) :
    ∀ (x : α) (rest : List α), l.filter p = x :: rest →
    ∃ i : Nat, l[i]? = some x ∧ p x = true ∧
      ∀ (k : Nat) (c : α), k < i → l[k]? = some c → p c = false := by
  induction l with
  | nil => intro x rest h; simp at h
  | cons a t ih =>
    intro x rest h
    by_cases hp : p a = true
    · rw [List.filter_cons, if_pos hp] at h
      obtain ⟨hax, -⟩ := List.cons.injEq .. ▸ h
      refine ⟨0, ?_, ?_, ?_⟩
      · rw [← hax]
        simp
      · rw [← hax]
        exact hp
      · intro k c hk _
        cases hk
    · have hpF : p a = false := Bool.eq_false_iff.mpr hp
      rw [List.filter_cons, hpF] at h
      simp only [Bool.false_eq_true, if_neg, not_false_iff] at h
      obtain ⟨i, hx, hpx, hbefore⟩ := ih x rest h
      refine ⟨i + 1, by simpa using hx, hpx, ?_⟩
      intro k c hk hkc
      cases k with
      | zero =>
        have : a = c := by simpa using hkc
        rw [← this]
        exact hpF
      | succ k' =>
        exact hbefore k' c (Nat.lt_of_succ_lt_succ hk)
          (by simpa using hkc)

theorem filter_second_index {α : Type _} (p : α → Bool) (l : List α) :
    ∀ (x y : α) (rest : List α), l.filter p = x :: y :: rest →
    ∃ (i j : Nat), i < j ∧ l[i]? = some x ∧ p x = true ∧
      l[j]? = some y ∧ p y = true ∧
      (∀ (k : Nat) (c : α), k < i → l[k]? = some c → p c = false) ∧
      (∀ (k : Nat) (c : α), i < k → k < j → l[k]? = some c →
        p c = false) := by
  induction l with
  | nil => intro x y rest h; simp at h
  | cons a t ih =>
    intro x y rest h
    by_cases hp : p a = true
    · rw [List.filter_cons, if_pos hp] at h
      have hax : a = x := (List.cons.injEq .. ▸ h).1
      have ht : t.filter p = y :: rest := (List.cons.injEq .. ▸ h).2
      obtain ⟨j', hy, hpy, hbefore⟩ := filter_head_index p t y rest ht
      refine ⟨0, j' + 1, Nat.succ_pos j', ?_, ?_, by simpa using hy, hpy,
        ?_, ?_⟩
      · rw [← hax]
        simp
      · rw [← hax]
        exact hp
      · intro k c hk _
        cases hk
      · intro k c hk1 hk2 hkc
        cases k with
        | zero => cases hk1
        | succ k' =>
          exact hbefore k' c (Nat.lt_of_succ_lt_succ hk2)
            (by simpa using hkc)
    · have hpF : p a = false := Bool.eq_false_iff.mpr hp
      rw [List.filter_cons, hpF] at h
      simp only [Bool.false_eq_true, if_neg, not_false_iff] at h
      obtain ⟨i, j, hij, hx, hpx, hy, hpy, hbefore, hmid⟩ := ih x y rest h
      refine ⟨i + 1, j + 1, Nat.succ_lt_succ hij, by simpa using hx, hpx,
        by simpa using hy, hpy, ?_, ?_⟩
      · intro k c hk hkc
        cases k with
        | zero =>
          have : a = c := by simpa using hkc
          rw [← this]
          exact hpF
        | succ k' =>
          exact hbefore k' c (Nat.lt_of_succ_lt_succ hk)
            (by simpa using hkc)
      · intro k c hk1 hk2 hkc
        cases k with
        | zero => cases hk1
        | succ k' =>
          exact hmid k' c (Nat.lt_of_succ_lt_succ hk1)
            (Nat.lt_of_succ_lt_succ hk2) (by simpa using hkc)

theorem applyFallback_eq (df : RawTable) (d : Mapping) (sp cl : String) :
    applyFallback df d sp cl =
      if (sp = "" ∨ cl = "") ∧ d.month_columns ≠ [] then
        if 2 ≤ (df.headers.filter (fun c =>
            decide (c ∉ d.month_columns) &&
            decide (normalize_text (.str c) ≠ "total"))).length then
          (pyOrS sp ((df.headers.filter (fun c =>
              decide (c ∉ d.month_columns) &&
              decide (normalize_text (.str c) ≠ "total"))).getD 0 ""),
           pyOrS cl ((df.headers.filter (fun c =>
              decide (c ∉ d.month_columns) &&
              decide (normalize_text (.str c) ≠ "total"))).getD 1 ""))
        else (sp, cl)
      else (sp, cl) := rfl

theorem fallbackP_of_true (d : Mapping) (c : String)
    (h : (decide (c ∉ d.month_columns) &&
      decide (normalize_text (.str c) ≠ "total")) = true) :
    FallbackP d c := by
  simp only [Bool.and_eq_true, decide_eq_true_eq] at h
  exact h

theorem not_fallbackP_of_false (d : Mapping) (c : String)
    (h : (decide (c ∉ d.month_columns) &&
      decide (normalize_text (.str c) ≠ "total")) = false) :
    ¬ FallbackP d c := by
  intro hP
  have : (decide (c ∉ d.month_columns) &&
      decide (normalize_text (.str c) ≠ "total")) = true := by
    simp only [Bool.and_eq_true, decide_eq_true_eq]
    exact hP
  rw [this] at h
  cases h

/-- C6: when salesperson or client is unresolved after the merge, the
detected month-column set is non-empty, and at least two eligible
columns exist, `normalize_dataset`'s defensive fallback keeps resolved
roles and assigns the leftmost eligible column (neither a detected month
column nor named "total") to an unresolved salesperson and the second
eligible column to an unresolved client, in native column order. -/
theorem fallback_leftmost (df : RawTable) (m : Option RawMapping)
    (hun : (effective_fields df m).comercial = "" ∨
      (effective_fields df m).cliente = "")
    (hmc : (detect_mapping df).month_columns ≠ [])
    (hn : 2 ≤ (df.headers.filter (fun c =>
      decide (c ∉ (detect_mapping df).month_columns) &&
      decide (normalize_text (.str c) ≠ "total"))).length) :
    FallbackSpec df (detect_mapping df) (effective_fields df m).comercial
      (effective_fields df m).cliente := by
  rcases hE : df.headers.filter (fun c =>
      decide (c ∉ (detect_mapping df).month_columns) &&
      decide (normalize_text (.str c) ≠ "total")) with _ | ⟨x, _ | ⟨y, rest⟩⟩
  · rw [hE] at hn
    simp at hn
  · rw [hE] at hn
    simp at hn
  · obtain ⟨i, j, hij, hx, hpx, hy, hpy, hbefore, hmiddle⟩ :=
      filter_second_index _ df.headers x y rest hE
    have happ : applyFallback df (detect_mapping df)
        (effective_fields df m).comercial (effective_fields df m).cliente =
        (pyOrS (effective_fields df m).comercial x,
         pyOrS (effective_fields df m).cliente y) := by
      rw [applyFallback_eq, if_pos ⟨hun, hmc⟩, hE]
      rw [if_pos (by simp)]
      rfl
    unfold FallbackSpec
    rw [happ]
    refine ⟨?_, ?_, ?_, ?_⟩
    · intro hsp
      simp only [pyOrS, hsp, if_neg, not_false_iff]
    · intro hcl
      simp only [pyOrS, hcl, if_neg, not_false_iff]
    · intro hsp
      refine ⟨i, ?_, ?_, ?_⟩
      · simp only [pyOrS, hsp, if_pos]
        exact hx
      · simp only [pyOrS, hsp, if_pos]
        exact fallbackP_of_true _ _ hpx
      · intro k c hk hkc
        exact not_fallbackP_of_false _ _ (hbefore k c hk hkc)
    · intro hcl
      refine ⟨i, j, x, hij, hx, fallbackP_of_true _ _ hpx, ?_, ?_, ?_, ?_⟩
      · simp only [pyOrS, hcl, if_pos]
        exact hy
      · simp only [pyOrS, hcl, if_pos]
        exact fallbackP_of_true _ _ hpy
      · intro k c hk hkc
        exact not_fallbackP_of_false _ _ (hbefore k c hk hkc)
      · intro k c hk1 hk2 hkc
        exact not_fallbackP_of_false _ _ (hmiddle k c hk1 hk2 hkc)

/-- Witness for C6: a wide table with headers AAA, BBB, Enero and no
recognizable salesperson/client headers falls back to AAA and BBB. -/
theorem fallback_leftmost_witness :
    FallbackSpec ⟨["AAA", "BBB", "Enero"], []⟩
      (detect_mapping ⟨["AAA", "BBB", "Enero"], []⟩)
      (effective_fields ⟨["AAA", "BBB", "Enero"], []⟩ none).comercial
      (effective_fields ⟨["AAA", "BBB", "Enero"], []⟩ none).cliente :=
  fallback_leftmost ⟨["AAA", "BBB", "Enero"], []⟩ none (by decide)
    (by decide) (by decide)

theorem dropWhile_id_of_false {α : Type _} (p : α → Bool) (l : List α)
    (h : ∀ c ∈ l, p c = false) : l.dropWhile p = l := by
  cases l with
  | nil => rfl
  | cons c t =>
    rw [List.dropWhile_cons, h c (List.mem_cons_self c t)]
    simp

theorem map_id_on {α : Type _} (f : α → α) (l : List α)
    (h : ∀ c ∈ l, f c = c) : l.map f = l := by
  induction l with
  | nil => rfl
  | cons c t ih =>
    rw [List.map_cons, h c (List.mem_cons_self c t),
      ih (fun c hc => h c (List.mem_cons_of_mem _ hc))]

theorem filter_all {α : Type _} (p : α → Bool) (l : List α)
    (h : ∀ c ∈ l, p c = true) : l.filter p = l := by
  induction l with
  | nil => rfl
  | cons c t ih =>
    rw [List.filter_cons, if_pos (h c (List.mem_cons_self c t)),
      ih (fun c hc => h c (List.mem_cons_of_mem _ hc))]

theorem takeWhile_append_all (p : Char → Bool) (l r : List Char)
    (h : ∀ c ∈ l, p c = true) :
    (l ++ r).takeWhile p = l ++ r.takeWhile p := by
  induction l with
  | nil => simp
  | cons c t ih =>
    rw [List.cons_append, List.takeWhile_cons,
      h c (List.mem_cons_self c t),
      ih (fun c hc => h c (List.mem_cons_of_mem _ hc))]
    simp

theorem dropWhile_append_all (p : Char → Bool) (l r : List Char)
    (h : ∀ c ∈ l, p c = true) :
    (l ++ r).dropWhile p = r.dropWhile p := by
  induction l with
  | nil => simp
  | cons c t ih =>
    rw [List.cons_append, List.dropWhile_cons,
      h c (List.mem_cons_self c t)]
    simp only [if_true]
    exact ih (fun c hc => h c (List.mem_cons_of_mem _ hc))

theorem takeWhile_all (p : Char → Bool) (l : List Char)
    (h : ∀ c ∈ l, p c = true) : l.takeWhile p = l := by
  have := takeWhile_append_all p l [] h
  simpa using this

theorem dropWhile_all (p : Char → Bool) (l : List Char)
    (h : ∀ c ∈ l, p c = true) : l.dropWhile p = [] := by
  have := dropWhile_append_all p l [] h
  simpa using this

theorem findIdx_append_not (p : Char → Bool) (l r : List Char)
    (h : ∀ c ∈ l, p c = false) :
    (l ++ r).findIdx p = l.length + r.findIdx p := by
  induction l with
  | nil => simp
  | cons c t ih =>
    rw [List.cons_append, List.findIdx_cons,
      h c (List.mem_cons_self c t)]
    simp only [cond_false]
    rw [ih (fun c hc => h c (List.mem_cons_of_mem _ hc)),
      List.length_cons]
    omega

theorem digit_ne_chars (c : Char) (h : c.isDigit = true) :
    c ≠ '+' ∧ c ≠ '-' ∧ c ≠ '.' ∧ c ≠ ',' ∧ c ≠ 'e' ∧ c ≠ 'E' ∧
    c ≠ '€' ∧ c ≠ ' ' := by
  refine ⟨?_, ?_, ?_, ?_, ?_, ?_, ?_, ?_⟩ <;>
    intro he <;> rw [he] at h <;> exact absurd h (by decide)

theorem digit_not_space (c : Char) (h : c.isDigit = true) :
    isSpaceChar c = false := by
  rw [Bool.eq_false_iff]
  intro hs
  simp only [isSpaceChar, Bool.or_eq_true, decide_eq_true_eq] at hs
  rcases hs with ((((h1 | h1) | h1) | h1) | h1) | h1 <;>
    rw [h1] at h <;> exact absurd h (by decide)

theorem mem_lookupChar (ps : List (Char × Char)) (c v : Char)
    (h : lookupChar ps c = some v) : (c, v) ∈ ps := by
  induction ps with
  | nil => simp [lookupChar] at h
  | cons p t ih =>
    rw [show p = (p.1, p.2) from rfl, lookupChar] at h
    split_ifs at h with hc
    · cases h
      rw [hc]
      exact Prod.mk.eta ▸ List.mem_cons_self _ _
    · exact List.mem_cons_of_mem _ (ih h)

theorem digit_pyLower (c : Char) (h : c.isDigit = true) : pyLower c = c := by
  unfold pyLower
  cases hl : lookupChar lowerPairs c with
  | none => rfl
  | some v =>
    have hmem := mem_lookupChar _ _ _ hl
    have hall : lowerPairs.all (fun p => p.1.isDigit = false) = true := by
      decide
    have := List.all_eq_true.mp hall _ hmem
    simp only [decide_eq_true_eq] at this
    rw [this] at h
    cases h

theorem digit_stripAccent (c : Char) (h : c.isDigit = true) :
    stripAccent c = c := by
  unfold stripAccent
  cases hl : lookupChar accentPairs c with
  | none => rfl
  | some v =>
    have hmem := mem_lookupChar _ _ _ hl
    have hall : accentPairs.all (fun p => p.1.isDigit = false) = true := by
      decide
    have := List.all_eq_true.mp hall _ hmem
    simp only [decide_eq_true_eq] at this
    rw [this] at h
    cases h

theorem collapseWsAux_id (l : List Char) : ∀ (b : Bool),
    (∀ c ∈ l, isSpaceChar c = false) → collapseWsAux b l = l := by
  induction l with
  | nil => intro b _; rfl
  | cons c t ih =>
    intro b h
    unfold collapseWsAux
    rw [h c (List.mem_cons_self c t)]
    simp only [Bool.false_eq_true, if_neg, not_false_iff]
    rw [ih false (fun c hc => h c (List.mem_cons_of_mem _ hc))]

theorem pstrip_id (l : List Char) (h : ∀ c ∈ l, isSpaceChar c = false) :
    pstrip l = l := by
  unfold pstrip
  rw [dropWhile_id_of_false _ _ h,
    dropWhile_id_of_false _ _ (fun c hc => h c (List.mem_reverse.mp hc)),
    List.reverse_reverse]

theorem normalizeChars_id (l : List Char)
    (hs : ∀ c ∈ l, isSpaceChar c = false)
    (hl : ∀ c ∈ l, pyLower c = c) (ha : ∀ c ∈ l, stripAccent c = c) :
    normalizeChars l = l := by
  unfold normalizeChars collapseWs
  rw [pstrip_id l hs, map_id_on _ _ hl, map_id_on _ _ ha,
    collapseWsAux_id l false hs]

theorem splitSign_cons_eq (c : Char) (t : List Char) :
    splitSign (c :: t) = if c = '+' then ((1 : ℚ), t)
      else if c = '-' then ((-1 : ℚ), t) else (1, c :: t) := rfl

theorem splitFrac_cons_eq (c : Char) (t : List Char) :
    splitFrac (c :: t) = if c = '.' then
      (t.takeWhile Char.isDigit, t.dropWhile Char.isDigit)
    else ([], c :: t) := rfl

theorem parseExp_nil (m : ℚ) : parseExp m [] = some m := rfl

theorem pyFloat_digits_dot (d1 d2 : List Char) (hne : d1 ≠ [])
    (hd1 : ∀ c ∈ d1, c.isDigit = true) (hd2 : ∀ c ∈ d2, c.isDigit = true) :
    pyFloat? (d1 ++ '.' :: d2) =
      some ((decimalVal d1 : ℚ) + (decimalVal d2 : ℚ) / 10 ^ d2.length) := by
  obtain ⟨a, t, rfl⟩ : ∃ a t, d1 = a :: t := by
    cases d1 with
    | nil => cases hne rfl
    | cons a t => exact ⟨a, t, rfl⟩
  have ha := hd1 a (List.mem_cons_self a t)
  obtain ⟨hap, ham, -, -, -, -, -, -⟩ := digit_ne_chars a ha
  have e1 : (a :: t) ++ '.' :: d2 = a :: (t ++ '.' :: d2) := rfl
  have htw : ((a :: t) ++ '.' :: d2).takeWhile Char.isDigit = a :: t := by
    rw [takeWhile_append_all _ _ _ hd1, List.takeWhile_cons]
    simp
  have hdw : ((a :: t) ++ '.' :: d2).dropWhile Char.isDigit =
      '.' :: d2 := by
    rw [dropWhile_append_all _ _ _ hd1, List.dropWhile_cons]
    simp
  simp only [pyFloat?, e1, splitSign_cons_eq, if_neg hap, if_neg ham]
  rw [← e1, htw, hdw, splitFrac_cons_eq, if_pos rfl,
    takeWhile_all _ _ hd2, dropWhile_all _ _ hd2]
  rw [if_neg (by simp)]
  rw [parseExp_nil, one_mul]

theorem mk_cons_not_empty (c : Char) (t : List Char) :
    (String.mk (c :: t)).isEmpty = false := by
  rw [Bool.eq_false_iff]
  intro hI
  have h2 := (String.isEmpty_iff _).mp hI
  have h3 : (c :: t) = ([] : List Char) := congrArg String.data h2
  cases h3

theorem shapes_ne_words (l : List Char)
    (h : ∀ c ∈ l, c.isDigit = true ∨ c = '.' ∨ c = ',') :
    String.mk l ∉ (["nan", "none", "null"] : List String) := by
  intro hmem
  simp only [List.mem_cons, List.not_mem_nil, or_false] at hmem
  rcases hmem with he | he | he
  · rw [show ("nan" : String) = String.mk ['n', 'a', 'n'] from rfl] at he
    injection he with hl
    have hn := h 'n' (by rw [hl]; simp)
    rcases hn with h1 | h1 | h1 <;> exact absurd h1 (by decide)
  · rw [show ("none" : String) = String.mk ['n', 'o', 'n', 'e'] from rfl]
      at he
    injection he with hl
    have hn := h 'n' (by rw [hl]; simp)
    rcases hn with h1 | h1 | h1 <;> exact absurd h1 (by decide)
  · rw [show ("null" : String) = String.mk ['n', 'u', 'l', 'l'] from rfl]
      at he
    injection he with hl
    have hn := h 'n' (by rw [hl]; simp)
    rcases hn with h1 | h1 | h1 <;> exact absurd h1 (by decide)

theorem parse_number_chars (l : List Char) (hne : l ≠ [])
    (hcls : ∀ c ∈ l, c.isDigit = true ∨ c = '.' ∨ c = ',') :
    parse_number (.str (String.mk l)) =
      (pyFloat? (if ',' ∈ l ∧ '.' ∈ l then
          if rfindIdx l '.' < rfindIdx l ',' then
            (l.filter (fun c => ¬ c = '.')).map
              (fun c => if c = ',' then '.' else c)
          else l.filter (fun c => ¬ c = ',')
        else l.map (fun c => if c = ',' then '.' else c))).getD 0 := by
  have hsp : ∀ c ∈ l, isSpaceChar c = false := by
    intro c hc
    rcases hcls c hc with h1 | h1 | h1
    · exact digit_not_space c h1
    · rw [h1]; rfl
    · rw [h1]; rfl
  have hlo : ∀ c ∈ l, pyLower c = c := by
    intro c hc
    rcases hcls c hc with h1 | h1 | h1
    · exact digit_pyLower c h1
    · rw [h1]; rfl
    · rw [h1]; rfl
  have hac : ∀ c ∈ l, stripAccent c = c := by
    intro c hc
    rcases hcls c hc with h1 | h1 | h1
    · exact digit_stripAccent c h1
    · rw [h1]; rfl
    · rw [h1]; rfl
  obtain ⟨a, t, rfl⟩ : ∃ a t, l = a :: t := by
    cases l with
    | nil => cases hne rfl
    | cons a t => exact ⟨a, t, rfl⟩
  have hstrip : pstrip (a :: t) = a :: t := pstrip_id _ hsp
  have hnorm : normalize_text (.str (String.mk (a :: t))) =
      String.mk (a :: t) := by
    unfold normalize_text
    rw [show cellTruthy (.str (String.mk (a :: t))) =
        !(String.mk (a :: t)).isEmpty from rfl, mk_cons_not_empty]
    show String.mk (normalizeChars (a :: t)) = String.mk (a :: t)
    rw [normalizeChars_id _ hsp hlo hac]
  have heuro : (a :: t).filter (fun c => ¬ (c = '€' ∨ c = ' ')) =
      a :: t := by
    refine filter_all _ _ ?_
    intro c hc
    rcases hcls c hc with h1 | h1 | h1
    · obtain ⟨-, -, -, -, -, -, h7, h8⟩ := digit_ne_chars c h1
      simp [h7, h8]
    · rw [h1]; rfl
    · rw [h1]; rfl
  show (let text := pstrip (a :: t)
    if text = [] then 0
    else if normalize_text (.str (String.mk text)) ∈
        (["nan", "none", "null"] : List String) then 0
    else
      let t1 := text.filter (fun c => ¬ (c = '€' ∨ c = ' '))
      let t2 :=
        if ',' ∈ t1 ∧ '.' ∈ t1 then
          if rfindIdx t1 '.' < rfindIdx t1 ',' then
            (t1.filter (fun c => ¬ c = '.')).map
              (fun c => if c = ',' then '.' else c)
          else t1.filter (fun c => ¬ c = ',')
        else t1.map (fun c => if c = ',' then '.' else c)
      (pyFloat? t2).getD 0) = _
  simp only [hstrip]
  rw [if_neg hne, if_neg (by rw [hnorm]; exact shapes_ne_words _ hcls)]
  simp only [heuro]

theorem findIdx_cons_head_false (p : Char → Bool) (c : Char)
    (l : List Char) (h : p c = false) :
    (c :: l).findIdx p = l.findIdx p + 1 := by
  rw [List.findIdx_cons, h]
  rfl

theorem findIdx_cons_head_true (p : Char → Bool) (c : Char)
    (l : List Char) (h : p c = true) : (c :: l).findIdx p = 0 := by
  rw [List.findIdx_cons, h]
  rfl

theorem parse_number_dot_comma (d1 d2 d3 : List Char) (hne : d1 ≠ [])
    (hd1 : ∀ c ∈ d1, c.isDigit = true) (hd2 : ∀ c ∈ d2, c.isDigit = true)
    (hd3 : ∀ c ∈ d3, c.isDigit = true) :
    parse_number (.str (String.mk (d1 ++ '.' :: (d2 ++ ',' :: d3)))) =
      (decimalVal (d1 ++ d2) : ℚ) +
        (decimalVal d3 : ℚ) / 10 ^ d3.length := by
  set l := d1 ++ '.' :: (d2 ++ ',' :: d3) with hl
  have hlne : l ≠ [] := by
    rw [hl]
    cases d1 <;> simp
  have hcls : ∀ c ∈ l, c.isDigit = true ∨ c = '.' ∨ c = ',' := by
    intro c hc
    rw [hl] at hc
    simp only [List.mem_append, List.mem_cons] at hc
    rcases hc with h | h | h | h | h
    · exact Or.inl (hd1 c h)
    · exact Or.inr (Or.inl h)
    · exact Or.inl (hd2 c h)
    · exact Or.inr (Or.inr h)
    · exact Or.inl (hd3 c h)
  rw [parse_number_chars l hlne hcls]
  have hmem : ',' ∈ l ∧ '.' ∈ l := by
    rw [hl]
    constructor <;> simp
  rw [if_pos hmem]
  have hrev : l.reverse =
      d3.reverse ++ ',' :: (d2.reverse ++ '.' :: d1.reverse) := by
    rw [hl]
    simp [List.reverse_append, List.append_assoc]
  have hidxDot : l.reverse.findIdx (fun a => a = '.') =
      d3.length + (d2.length + 1) := by
    rw [hrev, findIdx_append_not _ _ _ (fun c hc => by
      have hd := hd3 c (List.mem_reverse.mp hc)
      have h3 := (digit_ne_chars c hd).2.2.1
      simp [h3])]
    rw [findIdx_cons_head_false _ _ _ (by rfl)]
    rw [findIdx_append_not _ _ _ (fun c hc => by
      have hd := hd2 c (List.mem_reverse.mp hc)
      have h3 := (digit_ne_chars c hd).2.2.1
      simp [h3])]
    rw [findIdx_cons_head_true _ _ _ (by rfl)]
    simp only [List.length_reverse]
  have hidxComma : l.reverse.findIdx (fun a => a = ',') = d3.length := by
    rw [hrev, findIdx_append_not _ _ _ (fun c hc => by
      have hd := hd3 c (List.mem_reverse.mp hc)
      have h3 := (digit_ne_chars c hd).2.2.2.1
      simp [h3])]
    rw [findIdx_cons_head_true _ _ _ (by rfl)]
    simp
  have hlen : l.length = d1.length + d2.length + d3.length + 2 := by
    rw [hl]
    simp [List.length_append]
    omega
  have hcond : rfindIdx l '.' < rfindIdx l ',' := by
    unfold rfindIdx
    rw [hidxDot, hidxComma, hlen]
    omega
  rw [if_pos hcond]
  have hfil : l.filter (fun c => ¬ c = '.') = d1 ++ (d2 ++ ',' :: d3) := by
    rw [hl, List.filter_append]
    rw [filter_all _ d1 (fun c hc => by
      have h3 := (digit_ne_chars c (hd1 c hc)).2.2.1
      simp [h3])]
    rw [List.filter_cons]
    rw [if_neg (by simp)]
    rw [List.filter_append]
    rw [filter_all _ d2 (fun c hc => by
      have h3 := (digit_ne_chars c (hd2 c hc)).2.2.1
      simp [h3])]
    rw [List.filter_cons]
    rw [if_pos (by simp)]
    rw [filter_all _ d3 (fun c hc => by
      have h3 := (digit_ne_chars c (hd3 c hc)).2.2.1
      simp [h3])]
  have hmap : (d1 ++ (d2 ++ ',' :: d3)).map
      (fun c => if c = ',' then '.' else c) = (d1 ++ d2) ++ '.' :: d3 := by
    rw [List.map_append, List.map_append, List.map_cons]
    rw [map_id_on _ d1 (fun c hc => by
      have h3 := (digit_ne_chars c (hd1 c hc)).2.2.2.1
      simp [h3])]
    rw [map_id_on _ d2 (fun c hc => by
      have h3 := (digit_ne_chars c (hd2 c hc)).2.2.2.1
      simp [h3])]
    rw [map_id_on _ d3 (fun c hc => by
      have h3 := (digit_ne_chars c (hd3 c hc)).2.2.2.1
      simp [h3])]
    rw [if_pos rfl, ← List.append_assoc]
  rw [hfil, hmap, pyFloat_digits_dot (d1 ++ d2) d3
    (by cases d1 with
      | nil => cases hne rfl
      | cons a t => simp)
    (fun c hc => by
      rcases List.mem_append.mp hc with h | h
      · exact hd1 c h
      · exact hd2 c h)
    hd3]
  rfl

theorem parse_number_comma_dot (d1 d2 d3 : List Char) (hne : d1 ≠ [])
    (hd1 : ∀ c ∈ d1, c.isDigit = true) (hd2 : ∀ c ∈ d2, c.isDigit = true)
    (hd3 : ∀ c ∈ d3, c.isDigit = true) :
    parse_number (.str (String.mk (d1 ++ ',' :: (d2 ++ '.' :: d3)))) =
      (decimalVal (d1 ++ d2) : ℚ) +
        (decimalVal d3 : ℚ) / 10 ^ d3.length := by
  set l := d1 ++ ',' :: (d2 ++ '.' :: d3) with hl
  have hlne : l ≠ [] := by
    rw [hl]
    cases d1 <;> simp
  have hcls : ∀ c ∈ l, c.isDigit = true ∨ c = '.' ∨ c = ',' := by
    intro c hc
    rw [hl] at hc
    simp only [List.mem_append, List.mem_cons] at hc
    rcases hc with h | h | h | h | h
    · exact Or.inl (hd1 c h)
    · exact Or.inr (Or.inr h)
    · exact Or.inl (hd2 c h)
    · exact Or.inr (Or.inl h)
    · exact Or.inl (hd3 c h)
  rw [parse_number_chars l hlne hcls]
  have hmem : ',' ∈ l ∧ '.' ∈ l := by
    rw [hl]
    constructor <;> simp
  rw [if_pos hmem]
  have hrev : l.reverse =
      d3.reverse ++ '.' :: (d2.reverse ++ ',' :: d1.reverse) := by
    rw [hl]
    simp [List.reverse_append, List.append_assoc]
  have hidxDot : l.reverse.findIdx (fun a => a = '.') = d3.length := by
    rw [hrev, findIdx_append_not _ _ _ (fun c hc => by
      have hd := hd3 c (List.mem_reverse.mp hc)
      have h3 := (digit_ne_chars c hd).2.2.1
      simp [h3])]
    rw [findIdx_cons_head_true _ _ _ (by rfl)]
    simp
  have hidxComma : l.reverse.findIdx (fun a => a = ',') =
      d3.length + (d2.length + 1) := by
    rw [hrev, findIdx_append_not _ _ _ (fun c hc => by
      have hd := hd3 c (List.mem_reverse.mp hc)
      have h3 := (digit_ne_chars c hd).2.2.2.1
      simp [h3])]
    rw [findIdx_cons_head_false _ _ _ (by rfl)]
    rw [findIdx_append_not _ _ _ (fun c hc => by
      have hd := hd2 c (List.mem_reverse.mp hc)
      have h3 := (digit_ne_chars c hd).2.2.2.1
      simp [h3])]
    rw [findIdx_cons_head_true _ _ _ (by rfl)]
    simp only [List.length_reverse]
  have hlen : l.length = d1.length + d2.length + d3.length + 2 := by
    rw [hl]
    simp [List.length_append]
    omega
  have hcond : ¬ rfindIdx l '.' < rfindIdx l ',' := by
    unfold rfindIdx
    rw [hidxDot, hidxComma, hlen]
    omega
  rw [if_neg hcond]
  have hfil : l.filter (fun c => ¬ c = ',') = d1 ++ (d2 ++ '.' :: d3) := by
    rw [hl, List.filter_append]
    rw [filter_all _ d1 (fun c hc => by
      have h3 := (digit_ne_chars c (hd1 c hc)).2.2.2.1
      simp [h3])]
    rw [List.filter_cons]
    rw [if_neg (by simp)]
    rw [List.filter_append]
    rw [filter_all _ d2 (fun c hc => by
      have h3 := (digit_ne_chars c (hd2 c hc)).2.2.2.1
      simp [h3])]
    rw [List.filter_cons]
    rw [if_pos (by simp)]
    rw [filter_all _ d3 (fun c hc => by
      have h3 := (digit_ne_chars c (hd3 c hc)).2.2.2.1
      simp [h3])]
  rw [hfil, ← List.append_assoc, pyFloat_digits_dot (d1 ++ d2) d3
    (by cases d1 with
      | nil => cases hne rfl
      | cons a t => simp)
    (fun c hc => by
      rcases List.mem_append.mp hc with h | h
      · exact hd1 c h
      · exact hd2 c h)
    hd3]
  rfl

theorem parse_number_comma_only (d1 d2 : List Char) (hne : d1 ≠ [])
    (hd1 : ∀ c ∈ d1, c.isDigit = true)
    (hd2 : ∀ c ∈ d2, c.isDigit = true) :
    parse_number (.str (String.mk (d1 ++ ',' :: d2))) =
      (decimalVal d1 : ℚ) + (decimalVal d2 : ℚ) / 10 ^ d2.length := by
  set l := d1 ++ ',' :: d2 with hl
  have hlne : l ≠ [] := by
    rw [hl]
    cases d1 <;> simp
  have hcls : ∀ c ∈ l, c.isDigit = true ∨ c = '.' ∨ c = ',' := by
    intro c hc
    rw [hl] at hc
    simp only [List.mem_append, List.mem_cons] at hc
    rcases hc with h | h | h
    · exact Or.inl (hd1 c h)
    · exact Or.inr (Or.inr h)
    · exact Or.inl (hd2 c h)
  rw [parse_number_chars l hlne hcls]
  have hnodot : ¬ '.' ∈ l := by
    rw [hl]
    intro hdot
    simp only [List.mem_append, List.mem_cons] at hdot
    rcases hdot with h | h | h
    · exact (digit_ne_chars _ (hd1 _ h)).2.2.1 rfl
    · cases h
    · exact (digit_ne_chars _ (hd2 _ h)).2.2.1 rfl
  rw [if_neg (fun hmem => hnodot hmem.2)]
  have hmap : l.map (fun c => if c = ',' then '.' else c) =
      d1 ++ '.' :: d2 := by
    rw [hl, List.map_append, List.map_cons]
    rw [map_id_on _ d1 (fun c hc => by
      have h3 := (digit_ne_chars c (hd1 c hc)).2.2.2.1
      simp [h3])]
    rw [map_id_on _ d2 (fun c hc => by
      have h3 := (digit_ne_chars c (hd2 c hc)).2.2.2.1
      simp [h3])]
    rw [if_pos rfl]
  rw [hmap, pyFloat_digits_dot d1 d2 hne hd1 hd2]
  rfl

/-- C4: `parse_number` never fails (it is a total function by
construction) and disambiguates separators as specified: when both ','
and '.' occur (stated for decimal strings of each shape) the one
occurring later is the decimal separator and the other is removed; when
only ',' occurs it is the decimal separator; and the spec's four
concrete examples hold, unparseable input yielding 0.0. -/
theorem parse_number_spec :
    (∀ d1 d2 d3 : List Char, d1 ≠ [] → (∀ c ∈ d1, c.isDigit = true) →
      (∀ c ∈ d2, c.isDigit = true) → (∀ c ∈ d3, c.isDigit = true) →
      parse_number (.str (String.mk (d1 ++ '.' :: (d2 ++ ',' :: d3)))) =
        (decimalVal (d1 ++ d2) : ℚ) +
          (decimalVal d3 : ℚ) / 10 ^ d3.length) ∧
    (∀ d1 d2 d3 : List Char, d1 ≠ [] → (∀ c ∈ d1, c.isDigit = true) →
      (∀ c ∈ d2, c.isDigit = true) → (∀ c ∈ d3, c.isDigit = true) →
      parse_number (.str (String.mk (d1 ++ ',' :: (d2 ++ '.' :: d3)))) =
        (decimalVal (d1 ++ d2) : ℚ) +
          (decimalVal d3 : ℚ) / 10 ^ d3.length) ∧
    (∀ d1 d2 : List Char, d1 ≠ [] → (∀ c ∈ d1, c.isDigit = true) →
      (∀ c ∈ d2, c.isDigit = true) →
      parse_number (.str (String.mk (d1 ++ ',' :: d2))) =
        (decimalVal d1 : ℚ) + (decimalVal d2 : ℚ) / 10 ^ d2.length) ∧
    parse_number (.str "1.234,56") = 1234.56 ∧
    parse_number (.str "1,234.56") = 1234.56 ∧
    parse_number (.str "") = 0 ∧
    parse_number (.str "nan") = 0 := by
  refine ⟨parse_number_dot_comma, parse_number_comma_dot,
    parse_number_comma_only, ?_, ?_, ?_, ?_⟩
  · have h := parse_number_dot_comma ['1'] ['2', '3', '4'] ['5', '6']
      (by decide) (by decide) (by decide) (by decide)
    rw [show ("1.234,56" : String) =
      String.mk (['1'] ++ '.' :: (['2', '3', '4'] ++ ',' :: ['5', '6']))
      from rfl, h]
    have e1 : decimalVal (['1'] ++ ['2', '3', '4']) = 1234 := by decide
    have e2 : decimalVal ['5', '6'] = 56 := by decide
    have e3 : (['5', '6'] : List Char).length = 2 := rfl
    rw [e1, e2, e3]
    norm_num
  · have h := parse_number_comma_dot ['1'] ['2', '3', '4'] ['5', '6']
      (by decide) (by decide) (by decide) (by decide)
    rw [show ("1,234.56" : String) =
      String.mk (['1'] ++ ',' :: (['2', '3', '4'] ++ '.' :: ['5', '6']))
      from rfl, h]
    have e1 : decimalVal (['1'] ++ ['2', '3', '4']) = 1234 := by decide
    have e2 : decimalVal ['5', '6'] = 56 := by decide
    have e3 : (['5', '6'] : List Char).length = 2 := rfl
    rw [e1, e2, e3]
    norm_num
  · rfl
  · rfl

/-- Witness for C4: the dot-then-comma rule applied at a concrete
input. -/
theorem parse_number_spec_witness :
    parse_number (.str (String.mk
        (['9'] ++ '.' :: (['0'] ++ ',' :: ['5'])))) =
      (decimalVal (['9'] ++ ['0']) : ℚ) +
        (decimalVal ['5'] : ℚ) / 10 ^ (['5'] : List Char).length :=
  parse_number_spec.1 ['9'] ['0'] ['5'] (by decide) (by decide)
    (by decide) (by decide)

theorem pyLower_cases (c : Char) :
    (lookupChar lowerPairs c = none ∧ pyLower c = c) ∨
    (c, pyLower c) ∈ lowerPairs := by
  unfold pyLower
  cases h : lookupChar lowerPairs c with
  | none => exact Or.inl ⟨rfl, rfl⟩
  | some v => exact Or.inr (mem_lookupChar _ _ _ h)

theorem stripAccent_cases (c : Char) :
    (lookupChar accentPairs c = none ∧ stripAccent c = c) ∨
    (c, stripAccent c) ∈ accentPairs := by
  unfold stripAccent
  cases h : lookupChar accentPairs c with
  | none => exact Or.inl ⟨rfl, rfl⟩
  | some v => exact Or.inr (mem_lookupChar _ _ _ h)

theorem normChar_fix (c : Char) :
    pyLower (normChar c) = normChar c ∧
    stripAccent (normChar c) = normChar c := by
  have F1 : accentPairs.all (fun p => (lookupChar lowerPairs p.1).isSome ||
      (decide (pyLower p.2 = p.2) && decide (stripAccent p.2 = p.2))) =
      true := by decide
  have F2 : lowerPairs.all (fun p =>
      decide (pyLower (stripAccent p.2) = stripAccent p.2) &&
      decide (stripAccent (stripAccent p.2) = stripAccent p.2)) = true := by
    decide
  unfold normChar
  rcases pyLower_cases c with ⟨hnone, hid⟩ | hmem
  · rw [hid]
    rcases stripAccent_cases c with ⟨-, hid2⟩ | hmem2
    · rw [hid2]
      exact ⟨hid, hid2⟩
    · have hF := List.all_eq_true.mp F1 _ hmem2
      simp only [Bool.or_eq_true, Bool.and_eq_true, decide_eq_true_eq]
        at hF
      rcases hF with hF | hF
      · rw [hnone] at hF
        simp at hF
      · exact hF
  · have hF := List.all_eq_true.mp F2 _ hmem
    simp only [Bool.and_eq_true, decide_eq_true_eq] at hF
    exact hF

theorem normChar_idem (c : Char) : normChar (normChar c) = normChar c := by
  obtain ⟨h1, h2⟩ := normChar_fix c
  show stripAccent (pyLower (normChar c)) = normChar c
  rw [h1, h2]

theorem normChar_not_space (c : Char) (h : isSpaceChar c = false) :
    isSpaceChar (normChar c) = false := by
  have F3 : lowerPairs.all (fun p => isSpaceChar p.2 = false) = true := by
    decide
  have F4 : accentPairs.all (fun p => isSpaceChar p.2 = false) = true := by
    decide
  unfold normChar
  rcases pyLower_cases c with ⟨-, hid⟩ | hmem
  · rw [hid]
    rcases stripAccent_cases c with ⟨-, hid2⟩ | hmem2
    · rw [hid2]
      exact h
    · have hF := List.all_eq_true.mp F4 _ hmem2
      simpa using hF
  · rcases stripAccent_cases (pyLower c) with ⟨-, hid2⟩ | hmem2
    · rw [hid2]
      have hF := List.all_eq_true.mp F3 _ hmem
      simpa using hF
    · have hF := List.all_eq_true.mp F4 _ hmem2
      simpa using hF

theorem mem_collapseWsAux (l : List Char) : ∀ (b : Bool) (c : Char),
    c ∈ collapseWsAux b l → c = ' ' ∨ c ∈ l := by
  induction l with
  | nil => intro b c h; simp [collapseWsAux] at h
  | cons x rest ih =>
    intro b c h
    unfold collapseWsAux at h
    by_cases hx : isSpaceChar x = true
    · rw [hx] at h
      simp only [if_true] at h
      by_cases hb : b = true
      · rw [hb] at h
        simp only [if_true] at h
        rcases ih true c h with h1 | h1
        · exact Or.inl h1
        · exact Or.inr (List.mem_cons_of_mem _ h1)
      · have hbF : b = false := Bool.eq_false_iff.mpr hb
        rw [hbF] at h
        simp only [Bool.false_eq_true, if_neg, not_false_iff] at h
        rcases List.mem_cons.mp h with h1 | h1
        · exact Or.inl h1
        · rcases ih true c h1 with h2 | h2
          · exact Or.inl h2
          · exact Or.inr (List.mem_cons_of_mem _ h2)
    · have hxF : isSpaceChar x = false := Bool.eq_false_iff.mpr hx
      rw [hxF] at h
      simp only [Bool.false_eq_true, if_neg, not_false_iff] at h
      rcases List.mem_cons.mp h with h1 | h1
      · exact Or.inr (h1 ▸ List.mem_cons_self _ _)
      · rcases ih false c h1 with h2 | h2
        · exact Or.inl h2
        · exact Or.inr (List.mem_cons_of_mem _ h2)

theorem collapseWsAux_nil_all_space (l : List Char) : ∀ (b : Bool),
    collapseWsAux b l = [] → ∀ c ∈ l, isSpaceChar c = true := by
  induction l with
  | nil => intro b _ c hc; cases hc
  | cons x rest ih =>
    intro b h c hc
    unfold collapseWsAux at h
    by_cases hx : isSpaceChar x = true
    · rw [hx] at h
      simp only [if_true] at h
      by_cases hb : b = true
      · rw [hb] at h
        simp only [if_true] at h
        rcases List.mem_cons.mp hc with h1 | h1
        · rw [h1]
          exact hx
        · exact ih true h c h1
      · have hbF : b = false := Bool.eq_false_iff.mpr hb
        rw [hbF] at h
        simp at h
    · have hxF : isSpaceChar x = false := Bool.eq_false_iff.mpr hx
      rw [hxF] at h
      simp at h

theorem collapseWsAux_cons_eq (b : Bool) (x : Char) (rest : List Char) :
    collapseWsAux b (x :: rest) =
      if isSpaceChar x = true then
        (if b = true then collapseWsAux true rest
         else ' ' :: collapseWsAux true rest)
      else x :: collapseWsAux false rest := rfl

theorem collapse_idem (l : List Char) : ∀ (b : Bool),
    collapseWsAux b (collapseWsAux b l) = collapseWsAux b l := by
  induction l with
  | nil => intro b; rfl
  | cons x rest ih =>
    intro b
    by_cases hx : isSpaceChar x = true
    · by_cases hb : b = true
      · rw [collapseWsAux_cons_eq, if_pos hx, if_pos hb, hb]
        exact ih true
      · have hbF : b = false := Bool.eq_false_iff.mpr hb
        rw [collapseWsAux_cons_eq, if_pos hx, if_neg hb, hbF]
        rw [collapseWsAux_cons_eq, if_pos (by rfl : isSpaceChar ' ' = true)]
        rw [if_neg (by simp), ih true]
    · rw [collapseWsAux_cons_eq, if_neg hx]
      rw [collapseWsAux_cons_eq, if_neg hx, ih false]

theorem dropWhile_head_false (p : Char → Bool) (l : List Char) :
    ∀ (c : Char) (r : List Char), l.dropWhile p = c :: r → p c = false := by
  induction l with
  | nil => intro c r h; simp at h
  | cons a t ih =>
    intro c r h
    rw [List.dropWhile_cons] at h
    by_cases hp : p a = true
    · rw [hp] at h
      simp only [if_true] at h
      exact ih c r h
    · have hpF : p a = false := Bool.eq_false_iff.mpr hp
      rw [hpF] at h
      simp only [Bool.false_eq_true, if_neg, not_false_iff] at h
      obtain ⟨h1, -⟩ := List.cons.injEq .. ▸ h
      rw [← h1]
      exact hpF

theorem dropWhile_id_head (p : Char → Bool) (l : List Char)
    (h : ∀ c, l.head? = some c → p c = false) : l.dropWhile p = l := by
  cases l with
  | nil => rfl
  | cons a t =>
    rw [List.dropWhile_cons, h a (by simp)]
    simp

theorem pstrip_head_false (cs : List Char) (c : Char)
    (h : (pstrip cs).head? = some c) : isSpaceChar c = false := by
  unfold pstrip at h
  rw [List.head?_reverse] at h
  obtain ⟨t, ht⟩ := List.dropWhile_suffix (l := (cs.dropWhile
    isSpaceChar).reverse) isSpaceChar
  have hrev : ((cs.dropWhile isSpaceChar).reverse).getLast? = some c := by
    rw [← ht, List.getLast?_append, h]
    rfl
  rw [List.getLast?_reverse] at hrev
  cases hd : cs.dropWhile isSpaceChar with
  | nil =>
    rw [hd] at hrev
    cases hrev
  | cons a r =>
    rw [hd] at hrev
    simp only [List.head?_cons, Option.some.injEq] at hrev
    rw [← hrev]
    exact dropWhile_head_false _ cs a r hd

theorem pstrip_last_false (cs : List Char) (c : Char)
    (h : (pstrip cs).getLast? = some c) : isSpaceChar c = false := by
  unfold pstrip at h
  rw [List.getLast?_reverse] at h
  cases hd : ((cs.dropWhile isSpaceChar).reverse).dropWhile isSpaceChar with
  | nil =>
    rw [hd] at h
    cases h
  | cons a r =>
    rw [hd] at h
    simp only [List.head?_cons, Option.some.injEq] at h
    rw [← h]
    exact dropWhile_head_false _ _ a r hd

theorem collapseWsAux_head_false (m : List Char) (b : Bool)
    (hm : ∀ c, m.head? = some c → isSpaceChar c = false) :
    ∀ c, (collapseWsAux b m).head? = some c → isSpaceChar c = false := by
  intro c h
  cases m with
  | nil => cases h
  | cons x rest =>
    have hx : isSpaceChar x = false := hm x (by simp)
    rw [collapseWsAux_cons_eq, if_neg (by rw [hx]; simp)] at h
    simp only [List.head?_cons, Option.some.injEq] at h
    rw [← h]
    exact hx

theorem collapse_last_false (m : List Char) : ∀ (b : Bool),
    (∀ c, m.getLast? = some c → isSpaceChar c = false) →
    ∀ c, (collapseWsAux b m).getLast? = some c → isSpaceChar c = false := by
  induction m with
  | nil => intro b _ c h; cases h
  | cons x rest ih =>
    intro b hm c h
    cases hr : rest with
    | nil =>
      have hx : isSpaceChar x = false := by
        refine hm x ?_
        rw [hr]
        rfl
      subst hr
      rw [collapseWsAux_cons_eq, if_neg (by rw [hx]; simp)] at h
      simp only [collapseWsAux] at h
      simp only [List.getLast?_singleton, Option.some.injEq] at h
      rw [← h]
      exact hx
    | cons y t =>
      have hrest : ∀ d, rest.getLast? = some d → isSpaceChar d = false := by
        intro d hd
        refine hm d ?_
        rw [hr]
        rw [hr] at hd
        rw [List.getLast?_cons_cons]
        exact hd
      subst hr
      by_cases hx : isSpaceChar x = true
      · by_cases hb : b = true
        · rw [collapseWsAux_cons_eq, if_pos hx, if_pos hb] at h
          exact ih true hrest c h
        · rw [collapseWsAux_cons_eq, if_pos hx, if_neg hb] at h
          rw [getLast?_cons_or] at h
          cases hg : (collapseWsAux true (y :: t)).getLast? with
          | some d =>
            rw [hg] at h
            simp only [Option.or_some, Option.some.injEq] at h
            rw [← h]
            exact ih true hrest d hg
          | none =>
            exfalso
            rw [List.getLast?_eq_none_iff] at hg
            have hall := collapseWsAux_nil_all_space (y :: t) true hg
            obtain ⟨d, hd⟩ : ∃ d, (y :: t).getLast? = some d := by
              cases ht2 : (y :: t).getLast? with
              | none =>
                rw [List.getLast?_eq_none_iff] at ht2
                cases ht2
              | some d => exact ⟨d, rfl⟩
            have hdm : d ∈ (y :: t) :=
              List.mem_of_mem_getLast? (Option.mem_def.mpr hd)
            have := hall d hdm
            rw [hrest d hd] at this
            cases this
      · have hxF : isSpaceChar x = false := Bool.eq_false_iff.mpr hx
        rw [collapseWsAux_cons_eq, if_neg hx] at h
        rw [getLast?_cons_or] at h
        cases hg : (collapseWsAux false (y :: t)).getLast? with
        | some d =>
          rw [hg] at h
          simp only [Option.or_some, Option.some.injEq] at h
          rw [← h]
          exact ih false hrest d hg
        | none =>
          rw [hg] at h
          simp only [Option.none_or, Option.some.injEq] at h
          rw [← h]
          exact hxF

theorem pstrip_id_of_ends (l : List Char)
    (h1 : ∀ c, l.head? = some c → isSpaceChar c = false)
    (h2 : ∀ c, l.getLast? = some c → isSpaceChar c = false) :
    pstrip l = l := by
  unfold pstrip
  rw [dropWhile_id_head _ _ h1]
  rw [dropWhile_id_head _ _ (fun c hc => h2 c (by
    rw [← List.head?_reverse]
    exact hc))]
  exact List.reverse_reverse l

theorem normalizeChars_idem (l : List Char) :
    normalizeChars (normalizeChars l) = normalizeChars l := by
  have hmm : ∀ (x : List Char),
      (x.map pyLower).map stripAccent = x.map normChar := by
    intro x
    rw [List.map_map]
    rfl
  have hmhead : ∀ c, ((pstrip l).map normChar).head? = some c →
      isSpaceChar c = false := by
    intro c hc
    rw [List.head?_map] at hc
    cases hp : (pstrip l).head? with
    | none =>
      rw [hp] at hc
      cases hc
    | some d =>
      rw [hp] at hc
      simp only [Option.map_some', Option.some.injEq] at hc
      rw [← hc]
      exact normChar_not_space d (pstrip_head_false l d hp)
  have hmlast : ∀ c, ((pstrip l).map normChar).getLast? = some c →
      isSpaceChar c = false := by
    intro c hc
    rw [List.getLast?_map] at hc
    cases hp : (pstrip l).getLast? with
    | none =>
      rw [hp] at hc
      cases hc
    | some d =>
      rw [hp] at hc
      simp only [Option.map_some', Option.some.injEq] at hc
      rw [← hc]
      exact normChar_not_space d (pstrip_last_false l d hp)
  have e0 : normalizeChars l =
      collapseWsAux false ((pstrip l).map normChar) := by
    unfold normalizeChars collapseWs
    rw [hmm (pstrip l)]
  have hstrip : pstrip (collapseWsAux false ((pstrip l).map normChar)) =
      collapseWsAux false ((pstrip l).map normChar) :=
    pstrip_id_of_ends _ (collapseWsAux_head_false _ false hmhead)
      (collapse_last_false _ false hmlast)
  have hfix : ∀ c ∈ collapseWsAux false ((pstrip l).map normChar),
      normChar c = c := by
    intro c hc
    rcases mem_collapseWsAux _ false c hc with h1 | h1
    · rw [h1]
      decide
    · obtain ⟨d, -, hd⟩ := List.mem_map.mp h1
      rw [← hd]
      exact normChar_idem d
  rw [e0]
  unfold normalizeChars collapseWs
  rw [hstrip, hmm, map_id_on _ _ hfix]
  exact collapse_idem _ false

/-- C10: `normalize_text` is total (a function into strings) and
idempotent: applying it to its own output returns the output unchanged,
so downstream comparisons of normalized keys are stable under
re-normalization. -/
theorem normalize_text_idempotent (v : Cell) :
    normalize_text (.str (normalize_text v)) = normalize_text v := by
  have key := normalizeChars_idem (if cellTruthy v then pyStr v
    else "").data
  show String.mk (normalizeChars (if cellTruthy (.str (normalize_text v))
      then pyStr (.str (normalize_text v)) else "").data) =
    normalize_text v
  by_cases hE : (normalize_text v).isEmpty = true
  · rw [show cellTruthy (.str (normalize_text v)) =
        !(normalize_text v).isEmpty from rfl, hE]
    rw [if_neg (by simp)]
    have hv : normalize_text v = "" := (String.isEmpty_iff _).mp hE
    rw [hv]
    rfl
  · have hEF : (normalize_text v).isEmpty = false := Bool.eq_false_iff.mpr hE
    rw [show cellTruthy (.str (normalize_text v)) =
        !(normalize_text v).isEmpty from rfl, hEF]
    rw [if_pos (by simp)]
    show String.mk (normalizeChars (normalizeChars
      (if cellTruthy v then pyStr v else "").data)) = normalize_text v
    rw [key]
    rfl
